import Mathlib

set_option maxRecDepth 40000

/-!
Verification development for the persistent fork-choice storage core
(`fork_choice_control/src/storage.rs`).

The embedding is byte-level for database keys: every key family is encoded
exactly as the Rust `Display` implementations render it (single-character
family tag, zero-padded 20-digit decimal for slots, fixed-width 64-digit
lowercase hex for roots, unpadded decimal for blob indices), with keys
represented as lists of bytes.  Values are represented by an inductive
`Value` type standing for the SSZ payloads; a value deserializes as a
`BlobIdentifier` exactly when it is one (no other persisted payload is
40 bytes long).  The database is an association list with atomic batch
puts, point gets, deletes and sorted range scans.
-/

namespace Grandine

/-- Bytes of a database key (each entry is one byte, `< 256` for real keys). -/
abbrev Key := List Nat

/-- Fixed-width base-`b` big-endian digit list of `n` (width `w`). -/
def padDigits (b : Nat) : Nat → Nat → List Nat
  | 0, _ => []
  | w + 1, n => n / b ^ w :: padDigits b w (n % b ^ w)

/-- ASCII byte of a decimal digit. -/
def decByte (d : Nat) : Nat := 48 + d

/-- ASCII byte of a lowercase hex digit (`0`-`9`, `a`-`f`). -/
def hexByte (d : Nat) : Nat := if d < 10 then 48 + d else 87 + d

/-- Zero-padded 20-digit decimal rendering of a slot (`{:020}` on a `u64`). -/
def dec20 (n : Nat) : List Nat := (padDigits 10 20 n).map decByte

/-- Fixed-width 64-digit lowercase hex rendering of an `H256` (`{:x}`). -/
def hex64 (n : Nat) : List Nat := (padDigits 16 64 n).map hexByte

/-- Fuel-driven digit counter (structural recursion so that it reduces in the
kernel); `decWidthGo fuel n` is the decimal width of `n` whenever `n ≤ fuel`. -/
def decWidthGo : Nat → Nat → Nat
  | 0, _ => 1
  | fuel + 1, n => if n < 10 then 1 else decWidthGo fuel (n / 10) + 1

/-- Number of decimal digits of `n` as rendered by `Display` (`1` for `0`). -/
def decWidth (n : Nat) : Nat := decWidthGo n n

/-- Unpadded decimal rendering of a `u64` (`{}`), used for blob indices. -/
def decRepr (n : Nat) : List Nat := (padDigits 10 (decWidth n) n).map decByte

/-- SSZ bytes of an `H256`: the 32 raw bytes, big-endian per our numeric view. -/
def rootSszBytes (r : Nat) : List Nat := padDigits 256 32 r

/-- SSZ bytes of a `u64`: 8 bytes, little-endian. -/
def u64LeBytes (n : Nat) : List Nat := (List.range 8).map fun i => n / 256 ^ i % 256

/-- Typed storage keys, one constructor per key family of the schema. -/
inductive TypedKey where
  | finalizedBlockByRoot (root : Nat)
  | unfinalizedBlockByRoot (root : Nat)
  | blockRootBySlot (slot : Nat)
  | stateByBlockRoot (root : Nat)
  | slotByStateRoot (root : Nat)
  | stateCheckpointKey
  | blockCheckpointKey
  | blobSidecarByBlobId (root index : Nat)
  | slotBlobId (slot root index : Nat)
deriving DecidableEq

/-- Byte rendering of a typed key, following the Rust `Display` instances:
`"b" ++ hex`, `"b_nf" ++ hex`, `"r" ++ dec20`, `"s" ++ hex`, `"t" ++ hex`,
the literals `"cstate2"` and `"cblock"`, `"o" ++ hex ++ dec`, and
`"i" ++ dec20 ++ hex ++ dec`. -/
def encodeKey : TypedKey → Key
  | .finalizedBlockByRoot r => 98 :: hex64 r
  | .unfinalizedBlockByRoot r => 98 :: 95 :: 110 :: 102 :: hex64 r
  | .blockRootBySlot s => 114 :: dec20 s
  | .stateByBlockRoot r => 115 :: hex64 r
  | .slotByStateRoot r => 116 :: hex64 r
  | .stateCheckpointKey => [99, 115, 116, 97, 116, 101, 50]
  | .blockCheckpointKey => [99, 98, 108, 111, 99, 107]
  | .blobSidecarByBlobId r i => 111 :: (hex64 r ++ decRepr i)
  | .slotBlobId s r i => 105 :: (dec20 s ++ hex64 r ++ decRepr i)

/-! ## Data model

Blocks, states and blob sidecars are opaque consensus payloads; the storage
core only reads `slot`, `parent_root`, `state_root` and `hash_tree_root` from
blocks, `slot` from states and the header slot from blob sidecars, so they are
embedded as records of those fields plus an opaque `body`/`payload` tag that
keeps distinct payloads distinct. -/

/-- A `SignedBeaconBlock` as seen by the storage core. -/
structure Block where
  slot : Nat
  parentRoot : Nat
  stateRoot : Nat
  body : Nat
deriving DecidableEq

/-- A `BeaconState` as seen by the storage core. -/
structure StateV where
  slot : Nat
  payload : Nat
deriving DecidableEq

/-- A `BlobSidecar`: the storage core reads only
`signed_block_header.message.slot`. -/
structure BlobSidecarV where
  headerSlot : Nat
  payload : Nat
deriving DecidableEq

/-- Modelled from the spec: `hash_tree_root()` is the opaque injective digest
of a block exposed by the consensus types (the `types` crate is outside the
storage core); it is embedded as an injective pairing of the block fields. -/
def hashTreeRoot (b : Block) : Nat :=
  Nat.pair b.slot (Nat.pair b.parentRoot (Nat.pair b.stateRoot b.body))

/-- Modelled from the spec: a validated `ChainLink` supplied by the in-memory
fork-choice store, carrying `(block, block_root, state, valid)`; `state(store)`
is embedded as the `state` field and `slot()` as the block slot. -/
structure ChainLink where
  blockRoot : Nat
  block : Block
  state : StateV
  valid : Bool
deriving DecidableEq

/-- Slot of a chain link (`ChainLink::slot()` reads the block slot). -/
def ChainLink.slot (cl : ChainLink) : Nat := cl.block.slot

/-- Persisted values, one constructor per SSZ payload type stored by the core.
A stored value deserializes as a `BlobIdentifier` exactly when it is one: a
`BlobIdentifier` is 40 SSZ bytes while roots are 32 bytes, slots 8 bytes and
blocks, states, sidecars and checkpoint records are all larger. -/
inductive Value where
  | vRoot (r : Nat)
  | vSlot (s : Nat)
  | vBlock (b : Block)
  | vState (st : StateV)
  | vBlobSidecar (bs : BlobSidecarV)
  | vBlobId (root index : Nat)
  | vStateCheckpoint (blockRoot headSlot : Nat) (state : StateV)
  | vBlockCheckpoint (b : Block)
deriving DecidableEq

/-- Error kinds of the storage core (`Error` enum in `storage.rs`; the last
constructor is named `IncorrectPrefix` in the source). -/
inductive Err where
  | checkpointSyncFailed
  | dependentRootLookupFailed
  | genesisBlockRootNotFound
  | blockNotFound (blockRoot : Nat)
  | stateNotFound (stateSlot : Nat)
  | checkpointBlockRootMismatch (requested computed : Nat)
  | persistedSlotCannotContainAnchor (slot : Nat)
  | incorrectKeyTag (bytes : List Nat)
  | deserializationFailed
deriving DecidableEq

/-! ## Embedded key-value store

An association list with point get/delete, atomic batch put and sorted range
scans; scans are in lexicographic byte order of keys, matching the ordered
database contract of §4.3. -/

/-- The database: an association list from key bytes to values. -/
abbrev DB := List (Key × Value)

/-- Point lookup. -/
def dbGet (db : DB) (k : Key) : Option Value :=
  (db.find? fun e => decide (e.1 = k)).map (·.2)

/-- Point existence. -/
def dbContains (db : DB) (k : Key) : Bool := (dbGet db k).isSome

/-- Point delete. -/
def dbDelete (db : DB) (k : Key) : DB := db.filter fun e => decide (e.1 ≠ k)

/-- Single put (overwrites any previous value at the key). -/
def dbPut (db : DB) (e : Key × Value) : DB := e :: dbDelete db e.1

/-- Atomic batch put: entries are applied in order, later entries overwrite
earlier ones with the same key. -/
def putBatch (db : DB) (entries : List (Key × Value)) : DB :=
  entries.foldl dbPut db

/-- Descending range scan bounded inclusively above: all entries with key at
most `bound`, in descending key order (`iterator_descending(..=bound)`). -/
def scanDescLe (db : DB) (bound : Key) : List (Key × Value) :=
  (db.filter fun e => decide (e.1 ≤ bound)).insertionSort fun a b => b.1 ≤ a.1

/-- Ascending range scan bounded inclusively below: all entries with key at
least `low`, in ascending key order (`iterator_ascending(low..)`). -/
def scanAscGe (db : DB) (low : Key) : List (Key × Value) :=
  (db.filter fun e => decide (low ≤ e.1)).insertionSort fun a b => a.1 ≤ b.1

/-- Serialization of one batch entry (`serialize(key, value)`): the rendered
key bytes paired with the SSZ value. -/
def serializeEntry (k : TypedKey) (v : Value) : Key × Value := (encodeKey k, v)

/-! ## Storage operations translated from `storage.rs` -/

/-- Lookup of a typed key returning the raw stored value. -/
def getValue (db : DB) (k : TypedKey) : Option Value := dbGet db (encodeKey k)

/-- Modelled from the spec: `SLOTS_PER_EPOCH` of the active preset (the
`types` crate is outside the storage core); all claims use the mainnet value
`32`. -/
def slotsPerEpoch : Nat := 32

/-- Modelled from the spec: `misc::is_epoch_start::<P>(slot)` from
`helper_functions` (not under `src/`): `slot mod SLOTS_PER_EPOCH == 0`. -/
def isEpochStart (slot : Nat) : Bool := slot % slotsPerEpoch == 0

/-- Modelled from the spec: `misc::compute_epoch_at_slot::<P>(slot)` from
`helper_functions` (not under `src/`): `slot / SLOTS_PER_EPOCH`. -/
def epochAtSlot (slot : Nat) : Nat := slot / slotsPerEpoch

/-- SSZ bytes of a `BlobIdentifier` (`blob_id.to_ssz()`): the 32 root bytes
followed by the 8 little-endian index bytes — 40 bytes in total, which is
never the rendering of any textual storage key. -/
def blobIdSszBytes (root index : Nat) : Key := rootSszBytes root ++ u64LeBytes index

/-- Deserialization of a stored value as a `BlobIdentifier`
(`BlobIdentifier::from_ssz_default`): succeeds exactly on blob identifiers. -/
def parseBlobId : Value → Except Err (Nat × Nat)
  | .vBlobId r i => .ok (r, i)
  | _ => .error .deserializationFailed

/-- Deserialize every scanned value as a `BlobIdentifier`, failing on the
first value that is not one (the `?` inside the scan loop). -/
def collectBlobIds : List (Key × Value) → Except Err (List (Nat × Nat))
  | [] => .ok []
  | e :: rest => do
      let bid ← parseBlobId e.2
      let rest' ← collectBlobIds rest
      .ok (bid :: rest')

/-- Whether key bytes start with the `SlotBlobId` family tag `"i"`
(`SlotBlobId::has_prefix`). -/
def hasSlotBlobIdTag : Key → Bool
  | a :: _ => a == 105
  | [] => false

/-- Whether key bytes start with the `BlockRootBySlot` family tag `"r"`
(`BlockRootBySlot::has_prefix`). -/
def hasBlockRootBySlotTag : Key → Bool
  | a :: _ => a == 114
  | [] => false

/-- `prune_old_blob_sidecars(up_to_slot)`: descending scan bounded above by
`SlotBlobId(up_to_slot, H256::zero(), 0)`, stopping at the first key outside
the `SlotBlobId` family; every scanned value is round-tripped through
`BlobIdentifier` deserialization, then the code deletes `blob_id.to_ssz()`
for each identifier and finally the scanned `SlotBlobId` keys. -/
def pruneOldBlobSidecars (upToSlot : Nat) (db : DB) : Except Err DB :=
  let bound := encodeKey (.slotBlobId upToSlot 0 0)
  let collected := (scanDescLe db bound).takeWhile fun e => hasSlotBlobIdTag e.1
  match collectBlobIds collected with
  | .error e => .error e
  | .ok blobsToRemove =>
    let db1 := blobsToRemove.foldl (fun d bid => dbDelete d (blobIdSszBytes bid.1 bid.2)) db
    .ok (collected.foldl (fun d e => dbDelete d e.1) db1)

/-- `append_blob_sidecars`: one atomic batch writing, per input blob, the
`BlobSidecarByBlobId` entry and the dual `SlotBlobId` entry; returns the
persisted identifiers.  Each input is `(sidecar, (block_root, index))`. -/
def appendBlobSidecars (db : DB) (blobs : List (BlobSidecarV × Nat × Nat)) :
    DB × List (Nat × Nat) :=
  let batch := blobs.foldr
    (fun x acc =>
      serializeEntry (.blobSidecarByBlobId x.2.1 x.2.2) (.vBlobSidecar x.1) ::
      serializeEntry (.slotBlobId x.1.headerSlot x.2.1 x.2.2) (.vBlobId x.2.1 x.2.2) ::
      acc)
    []
  (putBatch db batch, blobs.map (·.2))

/-- `blob_sidecar_by_id`: point lookup in the `BlobSidecarByBlobId` family. -/
def blobSidecarById (db : DB) (root index : Nat) : Except Err (Option BlobSidecarV) :=
  match getValue db (.blobSidecarByBlobId root index) with
  | none => .ok none
  | some (.vBlobSidecar bs) => .ok (some bs)
  | some _ => .error .deserializationFailed

/-- `load_state_checkpoint`: read the `"cstate2"` record
`(block_root, head_slot, state)`. -/
def loadStateCheckpoint (db : DB) : Except Err (Option (Nat × Nat × StateV)) :=
  match getValue db .stateCheckpointKey with
  | none => .ok none
  | some (.vStateCheckpoint r hs st) => .ok (some (r, hs, st))
  | some _ => .error .deserializationFailed

/-- `load_block_checkpoint`: read the `"cblock"` record. -/
def loadBlockCheckpoint (db : DB) : Except Err (Option Block) :=
  match getValue db .blockCheckpointKey with
  | none => .ok none
  | some (.vBlockCheckpoint b) => .ok (some b)
  | some _ => .error .deserializationFailed

/-- `checkpoint_state_slot`: the `head_slot` field of the stored
`StateCheckpoint`, when present. -/
def checkpointStateSlot (db : DB) : Except Err (Option Nat) :=
  match loadStateCheckpoint db with
  | .error e => .error e
  | .ok none => .ok none
  | .ok (some (_, hs, _)) => .ok (some hs)

/-- `block_root_by_slot`: point lookup in the `BlockRootBySlot` family. -/
def blockRootBySlot (db : DB) (slot : Nat) : Except Err (Option Nat) :=
  match getValue db (.blockRootBySlot slot) with
  | none => .ok none
  | some (.vRoot r) => .ok (some r)
  | some _ => .error .deserializationFailed

/-- `AppendedBlockSlots`: the finalized/unfinalized slots touched by one
`append` call. -/
structure AppendedBlockSlots where
  finalized : List Nat
  unfinalized : List Nat
deriving DecidableEq

/-- Storage configuration: `archival_epoch_interval` (a `NonZeroU64`) and the
`prune_storage` flag. -/
structure StorageCfg where
  archivalEpochInterval : Nat
  pruneStorage : Bool

/-- Mutable state threaded through the `append` loop: the accumulated batch
(as typed entries, in push order), the touched slots, and the two
at-most-once flags. -/
structure LoopState where
  batch : List (TypedKey × Value)
  slots : AppendedBlockSlots
  ckptDone : Bool
  archDone : Bool

/-- Initial loop state of `append`. -/
def initLoopState : LoopState := ⟨[], ⟨[], []⟩, false, false⟩

/-- Batch entries pushed for one chain link by the body of the `append` loop,
in push order, mirroring `storage.rs` lines 253-319. -/
def appendStep (cfg : StorageCfg) (storeHeadSlot : Nat) (st : LoopState)
    (x : ChainLink × Bool) : LoopState :=
  let cl := x.1
  let finalized := x.2
  let slot := cl.slot
  let st1 :=
    if cfg.pruneStorage then st
    else if finalized then
      { st with
        batch := st.batch ++
          [(.finalizedBlockByRoot cl.blockRoot, .vBlock cl.block),
           (.blockRootBySlot slot, .vRoot cl.blockRoot)]
        slots := { st.slots with finalized := st.slots.finalized ++ [slot] } }
    else
      { st with
        batch := st.batch ++
          [(.unfinalizedBlockByRoot cl.blockRoot, .vBlock cl.block),
           (.blockRootBySlot slot, .vRoot cl.blockRoot)]
        slots := { st.slots with unfinalized := st.slots.unfinalized ++ [slot] } }
  if finalized then
    let st2 :=
      if cfg.pruneStorage then st1
      else { st1 with
        batch := st1.batch ++ [(.slotByStateRoot cl.block.stateRoot, .vSlot slot)] }
    let st3 :=
      if !st2.ckptDone && isEpochStart slot then
        { st2 with
          batch := st2.batch ++
            [(.blockCheckpointKey, .vBlockCheckpoint cl.block),
             (.stateCheckpointKey, .vStateCheckpoint cl.blockRoot storeHeadSlot cl.state)]
          ckptDone := true }
      else st2
    if !(st3.archDone || cfg.pruneStorage) &&
        (isEpochStart slot && epochAtSlot slot % cfg.archivalEpochInterval == 0) then
      { st3 with
        batch := st3.batch ++ [(.stateByBlockRoot cl.blockRoot, .vState cl.state)]
        archDone := true }
    else st3
  else st1

/-- The `append` loop over the whole presented chain. -/
def appendLoop (cfg : StorageCfg) (storeHeadSlot : Nat)
    (chain : List (ChainLink × Bool)) : LoopState :=
  chain.foldl (appendStep cfg storeHeadSlot) initLoopState

/-- The single presented sequence of `append`: unfinalized links in forward
order with flag `false`, then the finalized links reversed with flag `true`,
filtered by `is_finalized || chain_link.is_valid()`. -/
def filteredChain (unfinalized finalized : List ChainLink) : List (ChainLink × Bool) :=
  ((unfinalized.map fun cl => (cl, false)) ++
      (finalized.reverse.map fun cl => (cl, true))).filter
    fun x => x.2 || x.1.valid

/-- Previous head slot as read at the start of `append` (`0` when no
checkpoint is stored). -/
def prevHeadSlot (cp : Option (Nat × Nat × StateV)) : Nat :=
  match cp with
  | some (_, hs, _) => hs
  | none => 0

/-- Head slot recorded by `append`: the previous head slot maxed with the slot
of the first retained link, if any. -/
def storeHeadSlotOf (cp : Option (Nat × Nat × StateV))
    (chain : List (ChainLink × Bool)) : Nat :=
  match chain.head? with
  | some x => max x.1.slot (prevHeadSlot cp)
  | none => prevHeadSlot cp

/-- `append(unfinalized, finalized, store)`: build the batch over the filtered
chain and commit it atomically (a failing checkpoint read propagates). -/
def append (cfg : StorageCfg) (db : DB) (unfinalized finalized : List ChainLink) :
    Except Err (AppendedBlockSlots × DB) :=
  let chain := filteredChain unfinalized finalized
  match loadStateCheckpoint db with
  | .error e => .error e
  | .ok prev =>
    let shs := storeHeadSlotOf prev chain
    let ls := appendLoop cfg shs chain
    .ok (ls.slots, putBatch db (ls.batch.map fun e => serializeEntry e.1 e.2))

/-- Modelled from the spec: the in-memory fork-choice store (the
`fork_choice_store` crate is outside the storage core) is its sequence of
canonical chain links; `chain_link_before_or_at(slot)` returns the latest
link whose slot is at most `slot`. -/
def chainLinkBeforeOrAt (store : List ChainLink) (slot : Nat) : Option ChainLink :=
  (store.filter fun cl => decide (cl.slot ≤ slot)).getLast?

/-- `block_root_by_slot_with_store`: ask the store first; with a link at or
before the slot, answer from the store alone (`slot_matches.then_some`),
falling back to storage only when the store has no such link. -/
def blockRootBySlotWithStore (store : List ChainLink) (db : DB) (slot : Nat) :
    Except Err (Option Nat) :=
  match chainLinkBeforeOrAt store slot with
  | some cl => .ok (if cl.slot = slot then some cl.blockRoot else none)
  | none => blockRootBySlot db slot

/-! ## Anchor loader -/

/-- `finalized_block_by_root`: point lookup in the `FinalizedBlockByRoot`
family. -/
def finalizedBlockByRootGet (db : DB) (root : Nat) : Except Err (Option Block) :=
  match getValue db (.finalizedBlockByRoot root) with
  | none => .ok none
  | some (.vBlock b) => .ok (some b)
  | some _ => .error .deserializationFailed

/-- `unfinalized_block_by_root`: point lookup in the `UnfinalizedBlockByRoot`
family. -/
def unfinalizedBlockByRootGet (db : DB) (root : Nat) : Except Err (Option Block) :=
  match getValue db (.unfinalizedBlockByRoot root) with
  | none => .ok none
  | some (.vBlock b) => .ok (some b)
  | some _ => .error .deserializationFailed

/-- `state_by_block_root`: point lookup in the `StateByBlockRoot` family. -/
def stateByBlockRootGet (db : DB) (root : Nat) : Except Err (Option StateV) :=
  match getValue db (.stateByBlockRoot root) with
  | none => .ok none
  | some (.vState st) => .ok (some st)
  | some _ => .error .deserializationFailed

/-- Deserialization of a stored value as an `H256`
(`H256::from_ssz_default`). -/
def parseRoot : Value → Except Err Nat
  | .vRoot r => .ok r
  | _ => .error .deserializationFailed

/-- Deserialize every scanned value as an `H256`, failing on the first value
that is not one (`try_collect`). -/
def parseRoots : List (Key × Value) → Except Err (List Nat)
  | [] => .ok []
  | e :: rest => do
      let r ← parseRoot e.2
      let rest' ← parseRoots rest
      .ok (r :: rest')

/-- `OptionalStateStorage`: local recovery may find nothing, only unfinalized
blocks, or a full anchor.  The lazy `UnfinalizedBlocks` iterator is
represented by the list of block roots it would look up. -/
inductive OptionalStateStorage where
  | nothing
  | unfinalizedOnly (roots : List Nat)
  | full (state : StateV) (block : Block) (roots : List Nat)
deriving DecidableEq

/-- `OptionalStateStorage::is_none`. -/
def OptionalStateStorage.isNothing : OptionalStateStorage → Bool
  | .nothing => true
  | _ => false

/-- Epilogue of `load_state_by_iteration` once the scan ends or breaks. -/
def iterationEpilogue (roots : List Nat) : OptionalStateStorage :=
  if roots.isEmpty then .nothing else .unfinalizedOnly roots

/-- Loop of `load_state_by_iteration` over the descending scan: break at the
first key outside the `BlockRootBySlot` family; at the first root with a
persisted state, check epoch alignment, require the finalized block, and
return a full anchor together with the roots collected so far. -/
def loadStateByIterationGo (db : DB) :
    List (Key × Value) → List Nat → Except Err OptionalStateStorage
  | [], roots => .ok (iterationEpilogue roots)
  | e :: rest, roots =>
      if hasBlockRootBySlotTag e.1 then do
        let root ← parseRoot e.2
        match ← stateByBlockRootGet db root with
        | some state =>
            if isEpochStart state.slot then
              match ← finalizedBlockByRootGet db root with
              | some block => .ok (.full state block roots)
              | none => .error (.blockNotFound root)
            else .error (.persistedSlotCannotContainAnchor state.slot)
        | none => loadStateByIterationGo db rest (roots ++ [root])
      else .ok (iterationEpilogue roots)

/-- `load_state_by_iteration(start_from_slot)`. -/
def loadStateByIteration (db : DB) (startFromSlot : Nat) :
    Except Err OptionalStateStorage :=
  loadStateByIterationGo db
    (scanDescLe db (encodeKey (.blockRootBySlot startFromSlot))) []

/-- `load_state_and_blocks_from_checkpoint`: resolve the checkpoint pointer
pair, verify `block_root` against the checkpoint block, verify epoch
alignment, and enumerate the block roots at slots strictly above the
checkpoint state slot. -/
def loadStateAndBlocksFromCheckpoint (db : DB) :
    Except Err (Option (StateV × Block × List Nat)) := do
  match ← loadStateCheckpoint db with
  | none => .ok none
  | some (blockRoot, _, state) => do
      let block ←
        match ← loadBlockCheckpoint db with
        | some b =>
            if blockRoot = hashTreeRoot b then Except.ok b
            else Except.error (.checkpointBlockRootMismatch blockRoot (hashTreeRoot b))
        | none =>
            match ← finalizedBlockByRootGet db blockRoot with
            | some b => Except.ok b
            | none => Except.error (.blockNotFound blockRoot)
      if isEpochStart state.slot then
        let results := (scanAscGe db (encodeKey (.blockRootBySlot (state.slot + 1)))).takeWhile
          fun e => hasBlockRootBySlotTag e.1
        let roots ← parseRoots results
        .ok (some (state, block, roots))
      else .error (.persistedSlotCannotContainAnchor state.slot)

/-- `u64::MAX`, the `Slot::MAX` bound of the latest-state iteration. -/
def u64Max : Nat := 2 ^ 64 - 1

/-- `load_latest_state`: try the checkpoint pointer, else iterate down from
`Slot::MAX`. -/
def loadLatestState (db : DB) : Except Err OptionalStateStorage := do
  match ← loadStateAndBlocksFromCheckpoint db with
  | some (st, b, roots) => .ok (.full st b roots)
  | none => loadStateByIteration db u64Max

/-- The three-way `StateLoadStrategy`.  The checkpoint-sync URL carries no
information the model needs, so it is `Option Unit`; the genesis provider is
its block/state pair. -/
inductive StateLoadStrategy where
  | auto (stateSlot : Option Nat) (checkpointSyncUrl : Option Unit)
      (genesisBlock : Block) (genesisState : StateV)
  | remote
  | anchor (block : Block) (state : StateV)

/-- Result of `load`: the anchor triple plus `loaded_from_remote`. -/
structure LoadOutcome where
  anchorState : StateV
  anchorBlock : Block
  unfinalizedRoots : List Nat
  loadedFromRemote : Bool
deriving DecidableEq

/-- Anchor selection of the `Auto` strategy (`storage.rs` lines 111-166):
local recovery first; checkpoint sync only when local recovery found nothing,
with remote failure only logged; otherwise fall through to the local result
or genesis. -/
def chooseAnchorAuto (db : DB) (stateSlot : Option Nat) (url : Option Unit)
    (gBlock : Block) (gState : StateV) (fetchResult : Except Unit (Block × StateV)) :
    Except Err LoadOutcome := do
  let localStateStorage ←
    match stateSlot with
    | some slot => loadStateByIteration db slot
    | none => loadLatestState db
  let remoteOutcome : Option LoadOutcome :=
    match url with
    | some _ =>
        if localStateStorage.isNothing then
          match fetchResult with
          | .ok (block, state) => some ⟨state, block, [], true⟩
          | .error _ => none
        else none
    | none => none
  match remoteOutcome with
  | some o => .ok o
  | none =>
      match localStateStorage with
      | .full st b roots => .ok ⟨st, b, roots, false⟩
      | .unfinalizedOnly roots => .ok ⟨gState, gBlock, roots, false⟩
      | .nothing => .ok ⟨gState, gBlock, [], false⟩

/-- The four anchor records committed by `load` in one `put_batch`
(`storage.rs` lines 198-203): finalized block, slot-to-root, state-root-to-
slot (from the block's `state_root`), and state-by-block-root. -/
def anchorRecords (block : Block) (state : StateV) : List (Key × Value) :=
  [serializeEntry (.finalizedBlockByRoot (hashTreeRoot block)) (.vBlock block),
   serializeEntry (.blockRootBySlot block.slot) (.vRoot (hashTreeRoot block)),
   serializeEntry (.slotByStateRoot block.stateRoot) (.vSlot block.slot),
   serializeEntry (.stateByBlockRoot (hashTreeRoot block)) (.vState state)]

/-- Anchor selection of `load`: the three-way strategy match of
`storage.rs` lines 110-190 (the remote fetch result is a parameter, modelled
from the spec contract `fetch_finalized(url) -> Result<(block, state)>`). -/
def selectAnchor (db : DB) (strategy : StateLoadStrategy)
    (fetchResult : Except Unit (Block × StateV)) : Except Err LoadOutcome :=
  match strategy with
  | .auto ss url gb gs => chooseAnchorAuto db ss url gb gs fetchResult
  | .remote =>
    match fetchResult with
    | .ok (block, state) => Except.ok ⟨state, block, [], true⟩
    | .error _ => Except.error Err.checkpointSyncFailed
  | .anchor block state => Except.ok ⟨state, block, [], false⟩

/-- `load(client, strategy)`: select the anchor per strategy, then commit the
four anchor records atomically in a single `put_batch` and return the outcome
with the updated database. -/
def load (db : DB) (strategy : StateLoadStrategy)
    (fetchResult : Except Unit (Block × StateV)) :
    Except Err (LoadOutcome × DB) :=
  match selectAnchor db strategy fetchResult with
  | .error e => .error e
  | .ok outcome =>
    .ok (outcome, putBatch db (anchorRecords outcome.anchorBlock outcome.anchorState))

/-! ## Key decoding (`TryFrom` for `BlockRootBySlot`) -/

/-- Whether a byte is an ASCII decimal digit. -/
def isDigitByte (b : Nat) : Bool := 48 ≤ b && b ≤ 57

/-- Numeric value accumulated from ASCII digit bytes
(`str::parse::<u64>` on a digit string). -/
def digitsValue (bs : List Nat) : Nat := bs.foldl (fun acc b => acc * 10 + (b - 48)) 0

/-- Strip one optional leading `+` (byte 43), as `str::parse::<u64>` does. -/
def stripPlusSign : List Nat → List Nat
  | b :: rest => if b = 43 then rest else b :: rest
  | [] => []

/-- `str::parse::<u64>`: an optional leading `+`, then one or more ASCII
digits whose value fits in a `u64`. -/
def parseU64 (bs : List Nat) : Except Err Nat :=
  let digits := stripPlusSign bs
  if digits.isEmpty then .error .deserializationFailed
  else if digits.all isDigitByte then
    if digitsValue digits < 2 ^ 64 then .ok (digitsValue digits)
    else .error .deserializationFailed
  else .error .deserializationFailed

/-- `TryFrom<Cow<[u8]>> for BlockRootBySlot`: strip the `"r"` tag — failing
with `IncorrectPrefix` (here `incorrectKeyTag`) when it is absent — then
parse the remaining bytes as a decimal `u64`. -/
def decodeBlockRootBySlot (bs : List Nat) : Except Err Nat :=
  match bs with
  | b :: payload => if b = 114 then parseU64 payload else .error (.incorrectKeyTag bs)
  | [] => .error (.incorrectKeyTag bs)

/-! ## Facts about the digit codecs -/

theorem padDigits_length (b : Nat) : ∀ w n : Nat, (padDigits b w n).length = w
  | 0, _ => rfl
  | w + 1, n => by simp [padDigits, padDigits_length b w]

theorem padDigits_lt_base (b : Nat) :
    ∀ (w n : Nat), n < b ^ w → ∀ d ∈ padDigits b w n, d < b
  | 0, _, _, _, hd => absurd hd (by simp [padDigits])
  | w + 1, n, hn, d, hd => by
    have hb : 0 < b := by
      rcases Nat.eq_zero_or_pos b with hb0 | hb0
      · subst hb0; simp at hn
      · exact hb0
    simp only [padDigits, List.mem_cons] at hd
    rcases hd with rfl | hd
    · exact Nat.div_lt_of_lt_mul (by rwa [pow_succ] at hn)
    · exact padDigits_lt_base b w (n % b ^ w) (Nat.mod_lt _ (pow_pos hb w)) d hd

theorem padDigits_lex (b : Nat) :
    ∀ (w n m : Nat), n < m → m < b ^ w →
      List.Lex (· < ·) (padDigits b w n) (padDigits b w m)
  | 0, n, m, hnm, hm => by simp at hm; omega
  | w + 1, n, m, hnm, hm => by
    have hb : 0 < b := by
      rcases Nat.eq_zero_or_pos b with hb0 | hb0
      · subst hb0; simp at hm
      · exact hb0
    have hq : n / b ^ w ≤ m / b ^ w := Nat.div_le_div_right hnm.le
    rcases lt_or_eq_of_le hq with h | h
    · exact List.Lex.rel h
    · have h1 := Nat.div_add_mod n (b ^ w)
      have h2 := Nat.div_add_mod m (b ^ w)
      rw [h] at h1
      have hmod : n % b ^ w < m % b ^ w := by omega
      have hm' : m % b ^ w < b ^ w := Nat.mod_lt _ (pow_pos hb w)
      simpa [padDigits, h] using
        List.Lex.cons (r := (· < ·)) (a := m / b ^ w)
          (padDigits_lex b w _ _ hmod hm')

theorem lex_map {f : Nat → Nat} (hf : ∀ x y, x < y → f x < f y) :
    ∀ {l1 l2 : List Nat}, List.Lex (· < ·) l1 l2 →
      List.Lex (· < ·) (l1.map f) (l2.map f) := by
  intro l1 l2 h
  induction h with
  | nil => exact List.Lex.nil
  | cons _ ih => exact List.Lex.cons ih
  | rel h => exact List.Lex.rel (hf _ _ h)

theorem decByte_mono : ∀ x y : Nat, x < y → decByte x < decByte y := by
  intro x y h; simp only [decByte]; omega

theorem hexByte_mono : ∀ x y : Nat, x < y → hexByte x < hexByte y := by
  intro x y h; simp only [hexByte]; split_ifs <;> omega

theorem dec20_lex {n m : Nat} (hnm : n < m) (hm : m < 10 ^ 20) :
    List.Lex (· < ·) (dec20 n) (dec20 m) :=
  lex_map decByte_mono (padDigits_lex 10 20 n m hnm hm)

theorem dec20_length (n : Nat) : (dec20 n).length = 20 := by
  simp [dec20, padDigits_length]

theorem hex64_length (n : Nat) : (hex64 n).length = 64 := by
  simp [hex64, padDigits_length]

theorem lex_irrefl : ∀ l : List Nat, ¬ List.Lex (· < ·) l l
  | [], h => by cases h
  | a :: t, h => by
    cases h with
    | cons h => exact lex_irrefl t h
    | rel h => exact absurd h (lt_irrefl a)

theorem padDigits_injOn (b w : Nat) {n m : Nat} (hn : n < b ^ w) (hm : m < b ^ w)
    (h : padDigits b w n = padDigits b w m) : n = m := by
  rcases Nat.lt_trichotomy n m with hlt | heq | hgt
  · have := padDigits_lex b w n m hlt hm
    rw [h] at this
    exact absurd this (lex_irrefl _)
  · exact heq
  · have := padDigits_lex b w m n hgt hn
    rw [h] at this
    exact absurd this (lex_irrefl _)

theorem map_mono_inj {f : Nat → Nat} (hf : ∀ x y, x < y → f x < f y)
    {l1 l2 : List Nat} (h : l1.map f = l2.map f) : l1 = l2 := by
  rcases lt_trichotomy l1 l2 with hlt | heq | hgt
  · have := lex_map hf (hlt : List.Lex (· < ·) l1 l2)
    rw [h] at this
    exact absurd this (lex_irrefl _)
  · exact heq
  · have := lex_map hf (hgt : List.Lex (· < ·) l2 l1)
    rw [h] at this
    exact absurd this (lex_irrefl _)

theorem dec20_inj {n m : Nat} (hn : n < 10 ^ 20) (hm : m < 10 ^ 20)
    (h : dec20 n = dec20 m) : n = m :=
  padDigits_injOn 10 20 hn hm (map_mono_inj decByte_mono h)

theorem hex64_inj {n m : Nat} (hn : n < 16 ^ 64) (hm : m < 16 ^ 64)
    (h : hex64 n = hex64 m) : n = m :=
  padDigits_injOn 16 64 hn hm (map_mono_inj hexByte_mono h)

theorem decWidthGo_eq_log : ∀ fuel n : Nat, n ≤ fuel →
    decWidthGo fuel n = Nat.log 10 n + 1
  | 0, n, hn => by
    have : n = 0 := Nat.le_zero.mp hn
    subst this
    simp [decWidthGo, Nat.log_zero_right]
  | fuel + 1, n, hn => by
    by_cases h10 : n < 10
    · have : Nat.log 10 n = 0 := Nat.log_eq_zero_iff.mpr (Or.inl h10)
      simp [decWidthGo, h10, this]
    · have hstep : decWidthGo (fuel + 1) n = decWidthGo fuel (n / 10) + 1 := by
        simp [decWidthGo, h10]
      have hlog : Nat.log 10 n = Nat.log 10 (n / 10) + 1 := by
        rw [Nat.log_div_base]
        have : 0 < Nat.log 10 n := Nat.log_pos (by norm_num) (le_of_not_lt h10)
        omega
      have hrec : n / 10 ≤ fuel := by omega
      rw [hstep, decWidthGo_eq_log fuel (n / 10) hrec, hlog]

theorem decWidth_eq_log (n : Nat) : decWidth n = Nat.log 10 n + 1 :=
  decWidthGo_eq_log n n le_rfl

theorem lt_pow_decWidth (n : Nat) : n < 10 ^ decWidth n := by
  rw [decWidth_eq_log]
  exact Nat.lt_pow_succ_log_self (by norm_num) n

theorem decRepr_length (n : Nat) : (decRepr n).length = decWidth n := by
  simp [decRepr, padDigits_length]

theorem decRepr_inj {n m : Nat} (h : decRepr n = decRepr m) : n = m := by
  have hlen : decWidth n = decWidth m := by
    have := congrArg List.length h
    simpa [decRepr_length] using this
  have hn : n < 10 ^ decWidth m := hlen ▸ lt_pow_decWidth n
  have hm : m < 10 ^ decWidth m := lt_pow_decWidth m
  refine padDigits_injOn 10 (decWidth m) hn hm ?_
  have h2 : decRepr n = (padDigits 10 (decWidth m) n).map decByte := by
    rw [decRepr, hlen]
  rw [h2, decRepr] at h
  exact map_mono_inj decByte_mono h

/-! ## Facts about the lexicographic key order -/

theorem lex_append_eqlen {l1 l2 : List Nat} (h : List.Lex (· < ·) l1 l2)
    (hlen : l1.length = l2.length) (r1 r2 : List Nat) :
    List.Lex (· < ·) (l1 ++ r1) (l2 ++ r2) := by
  induction h with
  | nil => simp at hlen
  | cons _ ih => exact List.Lex.cons (ih (by simpa using hlen))
  | rel h => exact List.Lex.rel h

theorem cons_between {x : Nat} {as us m : List Nat}
    (h1 : (x :: as : List Nat) ≤ m) (h2 : m ≤ x :: us) : ∃ ms, m = x :: ms := by
  cases m with
  | nil => exact absurd (le_antisymm h1 List.nil_le) (by simp)
  | cons c ms =>
    have hxc : x ≤ c := by
      rcases lt_or_eq_of_le h1 with h | h
      · exact List.head_le_of_lt h
      · cases h; exact le_rfl
    have hcx : c ≤ x := by
      rcases lt_or_eq_of_le h2 with h | h
      · exact List.head_le_of_lt h
      · cases h; exact le_rfl
    exact ⟨ms, by rw [le_antisymm hcx hxc]⟩

/-! ## Facts about the database operations -/

theorem mem_dbDelete {db : DB} {k : Key} {e : Key × Value} :
    e ∈ dbDelete db k ↔ e ∈ db ∧ e.1 ≠ k := by
  simp [dbDelete, List.mem_filter]

theorem dbGet_cons (e : Key × Value) (db : DB) (k : Key) :
    dbGet (e :: db) k = if e.1 = k then some e.2 else dbGet db k := by
  by_cases h : e.1 = k <;> simp [dbGet, List.find?_cons, h]

theorem dbGet_dbDelete (db : DB) (k' k : Key) :
    dbGet (dbDelete db k') k = if k = k' then none else dbGet db k := by
  induction db with
  | nil =>
    simp only [dbDelete, List.filter_nil]
    split <;> rfl
  | cons e rest ih =>
    have hrest : dbDelete (e :: rest) k' =
        if e.1 = k' then dbDelete rest k' else e :: dbDelete rest k' := by
      simp only [dbDelete, List.filter_cons]
      by_cases he : e.1 = k' <;> simp [he]
    rw [hrest]
    by_cases he : e.1 = k'
    · rw [if_pos he, ih]
      by_cases hk : k = k'
      · simp [hk]
      · rw [if_neg hk, if_neg hk, dbGet_cons, if_neg fun h : e.1 = k => hk (he ▸ h ▸ rfl)]
    · rw [if_neg he, dbGet_cons, ih, dbGet_cons]
      by_cases hek : e.1 = k
      · have hk : ¬ k = k' := fun h => he (hek.symm ▸ h ▸ rfl)
        rw [if_pos hek, if_neg hk, if_pos hek]
      · rw [if_neg hek, if_neg hek]

theorem dbGet_dbPut (db : DB) (e : Key × Value) (k : Key) :
    dbGet (dbPut db e) k = if e.1 = k then some e.2 else dbGet db k := by
  rw [dbPut, dbGet_cons, dbGet_dbDelete]
  by_cases h : e.1 = k
  · rw [if_pos h, if_pos h]
  · rw [if_neg h, if_neg h, if_neg fun hk : k = e.1 => h hk.symm]

theorem dbGet_putBatch (db : DB) (es : List (Key × Value)) (k : Key) :
    dbGet (putBatch db es) k =
      match es.reverse.find? fun e => decide (e.1 = k) with
      | some e => some e.2
      | none => dbGet db k := by
  induction es generalizing db with
  | nil => simp [putBatch]
  | cons e rest ih =>
    have hstep : putBatch db (e :: rest) = putBatch (dbPut db e) rest := rfl
    rw [hstep, ih, List.reverse_cons, List.find?_append]
    cases hf : rest.reverse.find? fun x => decide (x.1 = k) with
    | some e' => simp [Option.or]
    | none =>
      simp only [Option.or, dbGet_dbPut]
      by_cases h : e.1 = k <;> simp [List.find?, h]

theorem dbContains_iff {db : DB} {k : Key} :
    dbContains db k = true ↔ ∃ e ∈ db, e.1 = k := by
  rw [dbContains, dbGet]
  cases hf : db.find? fun e => decide (e.1 = k) with
  | none =>
    rw [List.find?_eq_none] at hf
    simp only [decide_eq_true_eq] at hf
    constructor
    · intro h
      simp at h
    · rintro ⟨e, he, hek⟩
      exact absurd hek (hf e he)
  | some e =>
    have hmem := List.mem_of_find?_eq_some hf
    have hpred := List.find?_some hf
    simp only [decide_eq_true_eq] at hpred
    simp only [Option.map_some', Option.isSome_some, true_iff]
    exact ⟨e, hmem, hpred⟩

/-! ## Facts about the range scans -/

theorem mem_scanDescLe {db : DB} {bound : Key} {e : Key × Value} :
    e ∈ scanDescLe db bound ↔ e ∈ db ∧ e.1 ≤ bound := by
  simp [scanDescLe, List.mem_insertionSort, List.mem_filter]

instance instIsTotalDescKey : IsTotal (Key × Value) fun a b => b.1 ≤ a.1 :=
  ⟨fun a b => le_total b.1 a.1⟩

instance instIsTransDescKey : IsTrans (Key × Value) fun a b => b.1 ≤ a.1 :=
  ⟨fun _ _ _ h1 h2 => le_trans h2 h1⟩

theorem pairwise_scanDescLe (db : DB) (bound : Key) :
    List.Pairwise (fun a b : Key × Value => b.1 ≤ a.1) (scanDescLe db bound) :=
  List.sorted_insertionSort _ _

theorem mem_of_mem_takeWhile {α : Type} {p : α → Bool} :
    ∀ {l : List α} {x : α}, x ∈ l.takeWhile p → x ∈ l := by
  intro l
  induction l with
  | nil => simp
  | cons a t ih =>
    intro x hx
    rw [List.takeWhile_cons] at hx
    by_cases hp : p a
    · simp only [hp, if_true, List.mem_cons] at hx
      rcases hx with rfl | hx
      · exact List.mem_cons_self _ _
      · exact List.mem_cons_of_mem _ (ih hx)
    · simp [hp] at hx

theorem takeWhile_complete {bound : Key} :
    ∀ l : List (Key × Value),
      List.Pairwise (fun a b : Key × Value => b.1 ≤ a.1) l →
      (∀ e ∈ l, e.1 ≤ bound) →
      (∃ t, bound = 105 :: t) →
      ∀ e ∈ l, hasSlotBlobIdTag e.1 = true →
        e ∈ l.takeWhile fun x => hasSlotBlobIdTag x.1 := by
  intro l
  induction l with
  | nil => simp
  | cons a t ih =>
    intro hpair hle htag e he hetag
    obtain ⟨bt, hbt⟩ := htag
    rw [List.pairwise_cons] at hpair
    by_cases hpa : hasSlotBlobIdTag a.1
    · rw [List.takeWhile_cons]
      simp only [hpa, if_true]
      rcases List.mem_cons.mp he with rfl | he'
      · exact List.mem_cons_self _ _
      · exact List.mem_cons_of_mem _
          (ih hpair.2 (fun x hx => hle x (List.mem_cons_of_mem _ hx)) ⟨bt, hbt⟩ e he' hetag)
    · exfalso
      rcases List.mem_cons.mp he with rfl | he'
      · exact hpa hetag
      · have h1 : e.1 ≤ a.1 := hpair.1 e he'
        have h2 : a.1 ≤ bound := hle a (List.mem_cons_self _ _)
        obtain ⟨et, het⟩ : ∃ t, e.1 = 105 :: t := by
          cases hk : e.1 with
          | nil => rw [hk] at hetag; simp [hasSlotBlobIdTag] at hetag
          | cons x xs =>
            rw [hk] at hetag
            simp only [hasSlotBlobIdTag, beq_iff_eq] at hetag
            exact ⟨xs, by rw [hetag]⟩
        rw [het] at h1
        rw [hbt] at h2
        obtain ⟨ms, hms⟩ := cons_between h1 h2
        rw [hms] at hpa
        simp [hasSlotBlobIdTag] at hpa

/-! ## Facts about blob pruning -/

theorem mem_foldl_dbDelete :
    ∀ (ks : List Key) (db : DB) (e : Key × Value),
      e ∈ ks.foldl dbDelete db → e ∈ db ∧ e.1 ∉ ks
  | [], _, _, h => ⟨h, by simp⟩
  | k :: ks, db, e, h => by
    obtain ⟨h1, h2⟩ := mem_foldl_dbDelete ks (dbDelete db k) e h
    rw [mem_dbDelete] at h1
    refine ⟨h1.1, ?_⟩
    rw [List.mem_cons, not_or]
    exact ⟨h1.2, h2⟩

theorem slotBlobId_bound_tag (S : Nat) :
    ∃ t, encodeKey (.slotBlobId S 0 0) = 105 :: t := by
  simp [encodeKey]

theorem prune_ok_shape {S : Nat} {db db' : DB}
    (h : pruneOldBlobSidecars S db = .ok db') :
    ∃ bids,
      collectBlobIds ((scanDescLe db (encodeKey (.slotBlobId S 0 0))).takeWhile
        fun e => hasSlotBlobIdTag e.1) = .ok bids ∧
      db' = ((scanDescLe db (encodeKey (.slotBlobId S 0 0))).takeWhile
          fun e => hasSlotBlobIdTag e.1).foldl (fun d e => dbDelete d e.1)
        (bids.foldl (fun d bid => dbDelete d (blobIdSszBytes bid.1 bid.2)) db) := by
  simp only [pruneOldBlobSidecars] at h
  split at h
  · exact absurd h (by simp)
  · next bids heq =>
      refine ⟨bids, heq, ?_⟩
      injection h with h
      exact h.symm

theorem prune_no_tagged {S : Nat} {db db' : DB}
    (h : pruneOldBlobSidecars S db = .ok db') :
    ∀ e ∈ db', e ∈ db ∧
      (hasSlotBlobIdTag e.1 = true → ¬ e.1 ≤ encodeKey (.slotBlobId S 0 0)) := by
  obtain ⟨bids, _, hdb⟩ := prune_ok_shape h
  intro e he
  rw [hdb] at he
  rw [show (fun (d : DB) (e : Key × Value) => dbDelete d e.1) =
    (fun (d : DB) (x : Key × Value) => dbDelete d ((·.1) x)) from rfl,
    ← List.foldl_map] at he
  obtain ⟨he1, hnot⟩ := mem_foldl_dbDelete _ _ _ he
  have he1' : e ∈ (bids.map fun bid => blobIdSszBytes bid.1 bid.2).foldl dbDelete db := by
    rw [List.foldl_map]
    exact he1
  obtain ⟨he2, _⟩ := mem_foldl_dbDelete _ _ _ he1'
  refine ⟨he2, ?_⟩
  intro htag hle
  have hscan : e ∈ scanDescLe db (encodeKey (.slotBlobId S 0 0)) :=
    mem_scanDescLe.mpr ⟨he2, hle⟩
  have hcol : e ∈ (scanDescLe db (encodeKey (.slotBlobId S 0 0))).takeWhile
      fun x => hasSlotBlobIdTag x.1 :=
    takeWhile_complete _ (pairwise_scanDescLe db _)
      (fun x hx => (mem_scanDescLe.mp hx).2) (slotBlobId_bound_tag S) e hscan htag
  exact hnot (List.mem_map_of_mem (·.1) hcol)

theorem prune_idem {S : Nat} {db db' : DB}
    (h : pruneOldBlobSidecars S db = .ok db') :
    pruneOldBlobSidecars S db' = .ok db' := by
  have hno := prune_no_tagged h
  have hcol : (scanDescLe db' (encodeKey (.slotBlobId S 0 0))).takeWhile
      (fun x => hasSlotBlobIdTag x.1) = [] := by
    cases hsc : scanDescLe db' (encodeKey (.slotBlobId S 0 0)) with
    | nil => rfl
    | cons a t =>
      have ha : a ∈ scanDescLe db' (encodeKey (.slotBlobId S 0 0)) := by
        rw [hsc]
        exact List.mem_cons_self _ _
      rw [mem_scanDescLe] at ha
      have htag : hasSlotBlobIdTag a.1 = false := by
        cases htag : hasSlotBlobIdTag a.1 with
        | false => rfl
        | true => exact absurd ha.2 ((hno a ha.1).2 htag)
      rw [List.takeWhile_cons, htag]
      rfl
  simp only [pruneOldBlobSidecars, hcol]
  rfl

/-! ## Global injectivity of the key codec -/

theorem padDigits_succ (b w n : Nat) :
    padDigits b (w + 1) n = n / b ^ w :: padDigits b w (n % b ^ w) := rfl

theorem padDigits_inj_pos (b : Nat) :
    ∀ w n m : Nat, padDigits b (w + 1) n = padDigits b (w + 1) m → n = m := by
  intro w
  induction w with
  | zero =>
    intro n m h
    simpa [padDigits] using h
  | succ w ih =>
    intro n m h
    rw [padDigits_succ, padDigits_succ] at h
    injection h with h1 h2
    have h3 := ih _ _ h2
    have hn := Nat.div_add_mod n (b ^ (w + 1))
    have hm := Nat.div_add_mod m (b ^ (w + 1))
    rw [h1, h3] at hn
    omega

theorem hex64_inj_all {n m : Nat} (h : hex64 n = hex64 m) : n = m :=
  padDigits_inj_pos 16 63 n m (map_mono_inj hexByte_mono h)

theorem dec20_inj_all {n m : Nat} (h : dec20 n = dec20 m) : n = m :=
  padDigits_inj_pos 10 19 n m (map_mono_inj decByte_mono h)

theorem hexByte_ne_95 (d : Nat) : hexByte d ≠ 95 := by
  unfold hexByte
  split <;> omega

theorem hex64_cons (r : Nat) :
    hex64 r = hexByte (r / 16 ^ 63) :: (padDigits 16 63 (r % 16 ^ 63)).map hexByte := by
  simp [hex64, padDigits]

theorem encodeKey_inj : ∀ {t1 t2 : TypedKey}, encodeKey t1 = encodeKey t2 → t1 = t2 := by
  intro t1 t2 h
  cases t1 <;> cases t2 <;>
    simp only [encodeKey, List.cons.injEq] at h <;>
    (try simp at h) <;>
    (try rfl)
  case finalizedBlockByRoot.finalizedBlockByRoot =>
    exact congrArg TypedKey.finalizedBlockByRoot (hex64_inj_all h)
  case finalizedBlockByRoot.unfinalizedBlockByRoot r1 r2 =>
    rw [hex64_cons r1] at h
    injection h with h1 _
    exact absurd h1 (hexByte_ne_95 _)
  case unfinalizedBlockByRoot.finalizedBlockByRoot r1 r2 =>
    rw [hex64_cons r2] at h
    injection h with h1 _
    exact absurd h1.symm (hexByte_ne_95 _)
  case unfinalizedBlockByRoot.unfinalizedBlockByRoot =>
    exact congrArg TypedKey.unfinalizedBlockByRoot (hex64_inj_all h)
  case blockRootBySlot.blockRootBySlot =>
    exact congrArg TypedKey.blockRootBySlot (dec20_inj_all h)
  case stateByBlockRoot.stateByBlockRoot =>
    exact congrArg TypedKey.stateByBlockRoot (hex64_inj_all h)
  case slotByStateRoot.slotByStateRoot =>
    exact congrArg TypedKey.slotByStateRoot (hex64_inj_all h)
  case blobSidecarByBlobId.blobSidecarByBlobId r1 i1 r2 i2 =>
    have hsplit := List.append_inj h (by simp [hex64, padDigits_length])
    rw [hex64_inj_all hsplit.1, decRepr_inj hsplit.2]
  case slotBlobId.slotBlobId s1 r1 i1 s2 r2 i2 =>
    have hs := List.append_inj h (by simp [dec20_length])
    have hr := List.append_inj hs.2 (by simp [hex64, padDigits_length])
    rw [dec20_inj_all hs.1, hex64_inj_all hr.1, decRepr_inj hr.2]

theorem serialize_find (batch : List (TypedKey × Value)) (tk : TypedKey) :
    ((batch.map fun e => serializeEntry e.1 e.2).find? fun e =>
        decide (e.1 = encodeKey tk)) =
      (batch.find? fun e => decide (e.1 = tk)).map fun e => serializeEntry e.1 e.2 := by
  rw [List.find?_map]
  have hp : ((fun e : Key × Value => decide (e.1 = encodeKey tk)) ∘
      fun e : TypedKey × Value => serializeEntry e.1 e.2) =
      fun e : TypedKey × Value => decide (e.1 = tk) := by
    funext e
    simp only [Function.comp, serializeEntry, decide_eq_decide]
    exact ⟨fun hk => encodeKey_inj hk, fun hk => by rw [hk]⟩
  rw [hp]

theorem dbGet_putBatch_typed (db : DB) (batch : List (TypedKey × Value)) (tk : TypedKey) :
    dbGet (putBatch db (batch.map fun e => serializeEntry e.1 e.2)) (encodeKey tk) =
      match batch.reverse.find? fun e => decide (e.1 = tk) with
      | some e => some e.2
      | none => dbGet db (encodeKey tk) := by
  rw [dbGet_putBatch, ← List.map_reverse, serialize_find]
  cases batch.reverse.find? fun e => decide (e.1 = tk) <;> rfl

/-! ## Facts about the `append` loop -/

/-- Batch entries pushed for one chain link, as a pure function of the two
at-most-once flags (the functional reading of `appendStep`). -/
def stepEntries (cfg : StorageCfg) (storeHeadSlot : Nat) (ckptDone archDone : Bool)
    (x : ChainLink × Bool) : List (TypedKey × Value) :=
  let cl := x.1
  let slot := cl.slot
  (if cfg.pruneStorage then []
   else if x.2 then
     [(.finalizedBlockByRoot cl.blockRoot, .vBlock cl.block),
      (.blockRootBySlot slot, .vRoot cl.blockRoot)]
   else
     [(.unfinalizedBlockByRoot cl.blockRoot, .vBlock cl.block),
      (.blockRootBySlot slot, .vRoot cl.blockRoot)]) ++
  (if x.2 then
    (if cfg.pruneStorage then [] else [(.slotByStateRoot cl.block.stateRoot, .vSlot slot)]) ++
    (if !ckptDone && isEpochStart slot then
      [(.blockCheckpointKey, .vBlockCheckpoint cl.block),
       (.stateCheckpointKey, .vStateCheckpoint cl.blockRoot storeHeadSlot cl.state)]
     else []) ++
    (if !(archDone || cfg.pruneStorage) &&
        (isEpochStart slot && epochAtSlot slot % cfg.archivalEpochInterval == 0) then
      [(.stateByBlockRoot cl.blockRoot, .vState cl.state)]
     else [])
   else [])

theorem appendStep_batch (cfg : StorageCfg) (shs : Nat) (st : LoopState)
    (x : ChainLink × Bool) :
    (appendStep cfg shs st x).batch =
      st.batch ++ stepEntries cfg shs st.ckptDone st.archDone x := by
  rcases x with ⟨cl, fin⟩
  cases fin <;> by_cases hp : cfg.pruneStorage = true <;>
    cases hck : st.ckptDone <;> cases had : st.archDone <;>
    by_cases hes : isEpochStart cl.slot = true <;>
    by_cases hmu : epochAtSlot cl.slot % cfg.archivalEpochInterval = 0 <;>
    simp [appendStep, stepEntries, hp, hck, had, hes, hmu, List.append_assoc]

theorem appendStep_ckptDone (cfg : StorageCfg) (shs : Nat) (st : LoopState)
    (x : ChainLink × Bool) :
    (appendStep cfg shs st x).ckptDone =
      (st.ckptDone || (x.2 && isEpochStart x.1.slot)) := by
  rcases x with ⟨cl, fin⟩
  cases fin <;> by_cases hp : cfg.pruneStorage = true <;>
    cases hck : st.ckptDone <;> cases had : st.archDone <;>
    by_cases hes : isEpochStart cl.slot = true <;>
    by_cases hmu : epochAtSlot cl.slot % cfg.archivalEpochInterval = 0 <;>
    simp [appendStep, hp, hck, had, hes, hmu]

theorem foldl_batch_mono (cfg : StorageCfg) (shs : Nat) :
    ∀ (chain : List (ChainLink × Bool)) (st : LoopState) (e : TypedKey × Value),
      e ∈ st.batch → e ∈ (chain.foldl (appendStep cfg shs) st).batch
  | [], _, _, he => he
  | x :: rest, st, e, he => by
    refine foldl_batch_mono cfg shs rest (appendStep cfg shs st x) e ?_
    rw [appendStep_batch]
    exact List.mem_append_left _ he

/-- Whether a presented link is finalized and at an epoch-start slot (the
checkpoint condition of the `append` loop). -/
def finESLink (x : ChainLink × Bool) : Bool := x.2 && isEpochStart x.1.slot

theorem mem_stepEntries_ckptKeys {cfg : StorageCfg} {shs : Nat} {cd ad : Bool}
    {x : ChainLink × Bool} {e : TypedKey × Value} (he : e ∈ stepEntries cfg shs cd ad x)
    (hk : e.1 = TypedKey.stateCheckpointKey ∨ e.1 = TypedKey.blockCheckpointKey) :
    finESLink x = true ∧ cd = false ∧
      (e = (.stateCheckpointKey, .vStateCheckpoint x.1.blockRoot shs x.1.state) ∨
       e = (.blockCheckpointKey, .vBlockCheckpoint x.1.block)) := by
  rcases x with ⟨cl, fin⟩
  cases fin <;> by_cases hp : cfg.pruneStorage = true <;>
    cases hcd : cd <;> cases had : ad <;>
    by_cases hes : isEpochStart cl.slot = true <;>
    by_cases hmu : epochAtSlot cl.slot % cfg.archivalEpochInterval = 0 <;>
    simp only [stepEntries, finESLink, hp, hcd, had, hes, hmu] at he ⊢ <;>
    simp_all <;>
    aesop

theorem ckpt_mem_stepEntries {cfg : StorageCfg} {shs : Nat} {ad : Bool}
    {x : ChainLink × Bool} (hcd : finESLink x = true) :
    (.stateCheckpointKey, .vStateCheckpoint x.1.blockRoot shs x.1.state) ∈
      stepEntries cfg shs false ad x ∧
    (.blockCheckpointKey, (.vBlockCheckpoint x.1.block : Value)) ∈
      stepEntries cfg shs false ad x := by
  rcases x with ⟨cl, fin⟩
  simp only [finESLink, Bool.and_eq_true] at hcd
  obtain ⟨rfl, hes⟩ := hcd
  by_cases hp : cfg.pruneStorage = true <;> cases had : ad <;>
    by_cases hmu : epochAtSlot cl.slot % cfg.archivalEpochInterval = 0 <;>
    simp [stepEntries, hp, hes, hmu]

theorem appendLoop_cstate_val (cfg : StorageCfg) (shs : Nat) :
    ∀ (chain : List (ChainLink × Bool)) (st : LoopState),
      (∀ e ∈ st.batch, e.1 = TypedKey.stateCheckpointKey →
        ∃ r s2, e.2 = Value.vStateCheckpoint r shs s2) →
      ∀ e ∈ (chain.foldl (appendStep cfg shs) st).batch,
        e.1 = TypedKey.stateCheckpointKey →
        ∃ r s2, e.2 = Value.vStateCheckpoint r shs s2
  | [], _, hst => hst
  | x :: rest, st, hst => by
    refine appendLoop_cstate_val cfg shs rest _ ?_
    intro e he hk
    rw [appendStep_batch] at he
    rcases List.mem_append.mp he with he | he
    · exact hst e he hk
    · obtain ⟨_, _, hor⟩ := mem_stepEntries_ckptKeys he (Or.inl hk)
      rcases hor with rfl | rfl
      · exact ⟨_, _, rfl⟩
      · exact absurd hk (by simp)

theorem appendLoop_ckpt_first (cfg : StorageCfg) (shs : Nat) :
    ∀ (chain : List (ChainLink × Bool)) (st : LoopState) (x : ChainLink × Bool),
      st.ckptDone = false →
      chain.find? finESLink = some x →
      (TypedKey.stateCheckpointKey,
        Value.vStateCheckpoint x.1.blockRoot shs x.1.state) ∈
        (chain.foldl (appendStep cfg shs) st).batch ∧
      (TypedKey.blockCheckpointKey, Value.vBlockCheckpoint x.1.block) ∈
        (chain.foldl (appendStep cfg shs) st).batch
  | [], _, x, _, hfind => by simp at hfind
  | y :: rest, st, x, hck, hfind => by
    cases hy : finESLink y with
    | true =>
      rw [List.find?_cons_of_pos _ hy] at hfind
      injection hfind with hfind
      subst hfind
      have hmem := @ckpt_mem_stepEntries cfg shs st.archDone y hy
      have hbatch : ∀ z ∈ stepEntries cfg shs st.ckptDone st.archDone y,
          z ∈ (appendStep cfg shs st y).batch := by
        intro z hz
        rw [appendStep_batch]
        exact List.mem_append_right _ hz
      rw [hck] at hbatch
      exact ⟨foldl_batch_mono cfg shs rest _ _ (hbatch _ hmem.1),
        foldl_batch_mono cfg shs rest _ _ (hbatch _ hmem.2)⟩
    | false =>
      rw [List.find?_cons_of_neg _ (by simp [hy])] at hfind
      have hck' : (appendStep cfg shs st y).ckptDone = false := by
        rw [appendStep_ckptDone, hck]
        simpa [finESLink] using hy
      exact appendLoop_ckpt_first cfg shs rest _ x hck' hfind

theorem appendLoop_no_ckpt (cfg : StorageCfg) (shs : Nat) :
    ∀ (chain : List (ChainLink × Bool)) (st : LoopState),
      chain.find? finESLink = none →
      (∀ e ∈ st.batch, e.1 ≠ TypedKey.stateCheckpointKey) →
      ∀ e ∈ (chain.foldl (appendStep cfg shs) st).batch,
        e.1 ≠ TypedKey.stateCheckpointKey
  | [], _, _, hst => hst
  | y :: rest, st, hfind, hst => by
    have hy : finESLink y = false := by
      cases hy : finESLink y with
      | true => rw [List.find?_cons_of_pos _ hy] at hfind; cases hfind
      | false => rfl
    rw [List.find?_cons_of_neg _ (by simp [hy])] at hfind
    refine appendLoop_no_ckpt cfg shs rest _ hfind ?_
    intro e he
    rw [appendStep_batch] at he
    rcases List.mem_append.mp he with he | he
    · exact hst e he
    · intro hk
      obtain ⟨hfin, _, _⟩ := mem_stepEntries_ckptKeys he (Or.inl hk)
      rw [hy] at hfin
      cases hfin

theorem stepEntries_prune {cfg : StorageCfg} {shs : Nat} {cd ad : Bool}
    {x : ChainLink × Bool} (hp : cfg.pruneStorage = true) :
    ∀ e ∈ stepEntries cfg shs cd ad x,
      e.1 = TypedKey.stateCheckpointKey ∨ e.1 = TypedKey.blockCheckpointKey := by
  rcases x with ⟨cl, fin⟩
  intro e he
  cases fin <;> cases hcd : cd <;>
    by_cases hes : isEpochStart cl.slot = true <;>
    simp only [stepEntries, hp, hcd, hes] at he <;>
    simp_all <;>
    rcases he with rfl | rfl <;> simp

theorem appendLoop_prune_keys (cfg : StorageCfg) (shs : Nat)
    (hp : cfg.pruneStorage = true) :
    ∀ (chain : List (ChainLink × Bool)) (st : LoopState),
      (∀ e ∈ st.batch,
        e.1 = TypedKey.stateCheckpointKey ∨ e.1 = TypedKey.blockCheckpointKey) →
      ∀ e ∈ (chain.foldl (appendStep cfg shs) st).batch,
        e.1 = TypedKey.stateCheckpointKey ∨ e.1 = TypedKey.blockCheckpointKey
  | [], _, hst => hst
  | y :: rest, st, hst => by
    refine appendLoop_prune_keys cfg shs hp rest _ ?_
    intro e he
    rw [appendStep_batch] at he
    rcases List.mem_append.mp he with he | he
    · exact hst e he
    · exact stepEntries_prune hp e he

/-! ## Scenario constants used by several claims -/

/-- Finalized chain link at slot 32 (epoch 1), block root `100`. -/
def cl32 : ChainLink := ⟨100, ⟨32, 0, 200, 1⟩, ⟨32, 500⟩, true⟩

/-- Finalized chain link at slot 64 (epoch 2), block root `101`. -/
def cl64 : ChainLink := ⟨101, ⟨64, 100, 201, 2⟩, ⟨64, 501⟩, true⟩

/-- Finalized chain link at slot 96 (epoch 3), block root `102`. -/
def cl96 : ChainLink := ⟨102, ⟨96, 101, 202, 3⟩, ⟨96, 502⟩, true⟩

/-- Finalized chain link at slot 128 (epoch 4), block root `103`. -/
def cl128 : ChainLink := ⟨103, ⟨128, 102, 203, 4⟩, ⟨128, 503⟩, true⟩

/-- Blob sidecars at slots `[10, 10, 11, 12]` with indices `[0, 1, 0, 0]` and
block roots `[1, 1, 2, 3]` (scenario S3). -/
def blobsS3 : List (BlobSidecarV × Nat × Nat) :=
  [(⟨10, 100⟩, 1, 0), (⟨10, 101⟩, 1, 1), (⟨11, 102⟩, 2, 0), (⟨12, 103⟩, 3, 0)]

/-- The database after appending the S3 blob sidecars to an empty database. -/
def dbS3 : DB := (appendBlobSidecars [] blobsS3).1

/-! ## Claim C1 -/

/-- C1 (code bug): with blob sidecars at slots `[10, 10, 11, 12]`, indices
`[0, 1, 0, 0]` and nonzero block roots, `prune_old_blob_sidecars(11)` deletes
the slot-10 `SlotBlobId` entries but leaves every `BlobSidecarByBlobId` entry
in place — the code deletes `blob_id.to_ssz()` (40 raw SSZ bytes, never a key
of any family) instead of the `BlobSidecarByBlobId` key — so
`blob_sidecar_by_id` still returns the pruned blobs, and the slot-11 entry
with a nonzero root is not even scanned because its key exceeds the bound
`SlotBlobId(11, H256::zero(), 0)`. -/
theorem c1_prune_keeps_blob_sidecar_entries :
    ∃ db', pruneOldBlobSidecars 11 dbS3 = .ok db' ∧
      blobSidecarById db' 1 0 = .ok (some ⟨10, 100⟩) ∧
      blobSidecarById db' 1 1 = .ok (some ⟨10, 101⟩) ∧
      dbContains db' (encodeKey (.slotBlobId 10 1 0)) = false ∧
      dbContains db' (encodeKey (.slotBlobId 10 1 1)) = false ∧
      dbContains db' (encodeKey (.slotBlobId 11 2 0)) = true ∧
      dbContains db' (encodeKey (.slotBlobId 12 3 0)) = true ∧
      dbContains db' (encodeKey (.blobSidecarByBlobId 2 0)) = true ∧
      dbContains db' (encodeKey (.blobSidecarByBlobId 3 0)) = true :=
  ⟨_, rfl, rfl, rfl, rfl, rfl, rfl, rfl, rfl, rfl⟩

/-! ## Claim C2 -/

/-- A store whose only canonical link sits at slot 3. -/
def storeC2 : List ChainLink := [⟨9, ⟨3, 0, 0, 0⟩, ⟨3, 0⟩, true⟩]

/-- A database that stores `BlockRootBySlot(5) -> 7`. -/
def dbC2 : DB := [(encodeKey (.blockRootBySlot 5), .vRoot 7)]

/-- C2 (counterexample): the store has a chain link at or before slot 5 (at
slot 3) with no exact-slot match, and storage knows the root at slot 5, yet
`block_root_by_slot_with_store` returns `None` rather than the storage value —
refuting "the storage value is returned whenever the store cannot answer with
an exact-slot match". -/
theorem c2_counterexample :
    blockRootBySlotWithStore storeC2 dbC2 5 = .ok none ∧
    blockRootBySlot dbC2 5 = .ok (some 7) ∧
    chainLinkBeforeOrAt storeC2 5 = some ⟨9, ⟨3, 0, 0, 0⟩, ⟨3, 0⟩, true⟩ :=
  ⟨rfl, rfl, rfl⟩

/-- C2 (amended): when the store has a chain link at or before the slot,
`block_root_by_slot_with_store` answers from the store alone — the link's
root on an exact slot match and `None` otherwise, without consulting
storage; the storage lookup is used only when the store has no link at or
before the slot. -/
theorem c2_store_shadows_storage (store : List ChainLink) (db : DB) (slot : Nat) :
    (∀ cl, chainLinkBeforeOrAt store slot = some cl →
      blockRootBySlotWithStore store db slot =
        .ok (if cl.slot = slot then some cl.blockRoot else none)) ∧
    (chainLinkBeforeOrAt store slot = none →
      blockRootBySlotWithStore store db slot = blockRootBySlot db slot) := by
  constructor
  · intro cl hcl
    rw [blockRootBySlotWithStore, hcl]
  · intro hnone
    rw [blockRootBySlotWithStore, hnone]

/-- Witness for the amended C2 at the concrete store/database above. -/
theorem c2_store_shadows_storage_witness :
    blockRootBySlotWithStore storeC2 dbC2 5 =
      .ok (if (⟨9, ⟨3, 0, 0, 0⟩, ⟨3, 0⟩, true⟩ : ChainLink).slot = 5
        then some (⟨9, ⟨3, 0, 0, 0⟩, ⟨3, 0⟩, true⟩ : ChainLink).blockRoot else none) :=
  (c2_store_shadows_storage storeC2 dbC2 5).1 _ rfl

/-! ## Claim C4 -/

/-- A database holding one `SlotBlobId` entry at slot 5 with a nonzero root. -/
def dbC4 : DB := [(encodeKey (.slotBlobId 5 1 0), .vBlobId 1 0)]

/-- C4 (counterexample): `prune_old_blob_sidecars(5)` leaves a `SlotBlobId`
entry with slot `5 ≤ 5` untouched (its key exceeds the scan bound
`SlotBlobId(5, H256::zero(), 0)` because its root is nonzero), refuting
"leaves no `SlotBlobId` with slot ≤ S". -/
theorem c4_counterexample :
    pruneOldBlobSidecars 5 dbC4 = .ok dbC4 ∧
    dbContains dbC4 (encodeKey (.slotBlobId 5 1 0)) = true :=
  ⟨rfl, rfl⟩

/-- C4 (amended): `prune_old_blob_sidecars(S)` is idempotent — a second run
over its own output succeeds and changes nothing — and after it completes no
`SlotBlobId` entry with slot strictly below `S` remains (entries at slot
exactly `S` can survive). -/
theorem c4_prune_idempotent_and_bounded {S : Nat} {db db' : DB} (hS : S < 2 ^ 64)
    (h : pruneOldBlobSidecars S db = .ok db') :
    pruneOldBlobSidecars S db' = .ok db' ∧
    ∀ slot root idx : Nat, slot < S →
      dbContains db' (encodeKey (.slotBlobId slot root idx)) = false := by
  refine ⟨prune_idem h, ?_⟩
  intro slot root idx hslot
  have hkey : encodeKey (.slotBlobId slot root idx) < encodeKey (.slotBlobId S 0 0) := by
    show List.Lex (· < ·) _ _
    simp only [encodeKey]
    refine List.Lex.cons ?_
    rw [List.append_assoc, List.append_assoc]
    exact lex_append_eqlen
      (dec20_lex hslot (lt_trans hS (by norm_num)))
      (by rw [dec20_length, dec20_length]) _ _
  cases hcontains : dbContains db' (encodeKey (.slotBlobId slot root idx)) with
  | false => rfl
  | true =>
    exfalso
    obtain ⟨e, he, hek⟩ := dbContains_iff.mp hcontains
    have htag : hasSlotBlobIdTag e.1 = true := by rw [hek]; rfl
    have hle : e.1 ≤ encodeKey (.slotBlobId S 0 0) := hek ▸ le_of_lt hkey
    exact absurd hle ((prune_no_tagged h e he).2 htag)

/-- A database holding one `SlotBlobId` entry at slot 3 with a nonzero root. -/
def dbC4w : DB := [(encodeKey (.slotBlobId 3 1 0), .vBlobId 1 0)]

/-! ## Claims C3 and C6: the recorded head slot -/

theorem prevHeadSlot_le_storeHeadSlotOf (cp : Option (Nat × Nat × StateV))
    (chain : List (ChainLink × Bool)) :
    prevHeadSlot cp ≤ storeHeadSlotOf cp chain := by
  rw [storeHeadSlotOf]
  cases chain.head? with
  | none => exact le_rfl
  | some x => exact le_max_right _ _

theorem append_ok_db {cfg : StorageCfg} {db : DB} {unfin fin : List ChainLink}
    {s : AppendedBlockSlots} {db' : DB} {prev : Option (Nat × Nat × StateV)}
    (hprev : loadStateCheckpoint db = .ok prev)
    (h : append cfg db unfin fin = .ok (s, db')) :
    db' = putBatch db
      ((appendLoop cfg (storeHeadSlotOf prev (filteredChain unfin fin))
        (filteredChain unfin fin)).batch.map fun e => serializeEntry e.1 e.2) := by
  unfold append at h
  rw [hprev] at h
  injection h with h
  rw [Prod.mk.injEq] at h
  exact h.2.symm

theorem append_checkpointStateSlot {cfg : StorageCfg} {db : DB}
    {unfin fin : List ChainLink} {s : AppendedBlockSlots} {db' : DB}
    {prev : Option (Nat × Nat × StateV)}
    (hprev : loadStateCheckpoint db = .ok prev)
    (h : append cfg db unfin fin = .ok (s, db')) :
    checkpointStateSlot db' = checkpointStateSlot db ∨
    checkpointStateSlot db' =
      .ok (some (storeHeadSlotOf prev (filteredChain unfin fin))) := by
  have hdb := append_ok_db hprev h
  have hget := dbGet_putBatch_typed db
    ((appendLoop cfg (storeHeadSlotOf prev (filteredChain unfin fin))
      (filteredChain unfin fin)).batch) .stateCheckpointKey
  rw [← hdb] at hget
  cases hfind : ((appendLoop cfg (storeHeadSlotOf prev (filteredChain unfin fin))
      (filteredChain unfin fin)).batch).reverse.find?
      fun e => decide (e.1 = TypedKey.stateCheckpointKey) with
  | none =>
    left
    rw [hfind] at hget
    simp only [checkpointStateSlot, loadStateCheckpoint, getValue, hget]
  | some e =>
    right
    rw [hfind] at hget
    have hmem : e ∈ (appendLoop cfg (storeHeadSlotOf prev (filteredChain unfin fin))
        (filteredChain unfin fin)).batch :=
      List.mem_reverse.mp (List.mem_of_find?_eq_some hfind)
    have hpred := List.find?_some hfind
    simp only [decide_eq_true_eq] at hpred
    obtain ⟨r, s2, hval⟩ := appendLoop_cstate_val cfg _ _ initLoopState
      (by intro z hz; simp [initLoopState] at hz) e hmem hpred
    have hget2 : dbGet db' (encodeKey TypedKey.stateCheckpointKey) = some e.2 := hget
    rw [hval] at hget2
    simp only [checkpointStateSlot, loadStateCheckpoint, getValue, hget2]

/-- C6: across successive successful `append` calls, `checkpoint_state_slot()`
is monotonically non-decreasing; whenever `append` writes a new
`StateCheckpoint` its `head_slot` is the maximum of the previously stored
head slot and the slot of the first retained link, so a later call never
observes a smaller slot than an earlier one. -/
theorem c6_checkpoint_slot_monotone (cfg : StorageCfg) (db : DB)
    (unfin fin : List ChainLink) (s : AppendedBlockSlots) (db' : DB)
    (p p' : Option Nat) (v : Nat)
    (h : append cfg db unfin fin = .ok (s, db'))
    (hp : checkpointStateSlot db = .ok p)
    (hp' : checkpointStateSlot db' = .ok p')
    (hv : p = some v) :
    ∃ v', p' = some v' ∧ v ≤ v' := by
  subst hv
  obtain ⟨prev, hprevEq⟩ : ∃ prev, loadStateCheckpoint db = .ok prev := by
    cases hl : loadStateCheckpoint db with
    | error e => rw [checkpointStateSlot, hl] at hp; cases hp
    | ok prev => exact ⟨prev, rfl⟩
  have hpv : prevHeadSlot prev = v := by
    rw [checkpointStateSlot, hprevEq] at hp
    cases prev with
    | none => simp [checkpointStateSlot] at hp
    | some t =>
      rcases t with ⟨r, hs, st⟩
      simp only [Except.ok.injEq, Option.some.injEq] at hp
      exact hp
  rcases append_checkpointStateSlot hprevEq h with hsame | hnew
  · rw [hp', hp] at hsame
    injection hsame with hsame
    exact ⟨v, hsame, le_rfl⟩
  · rw [hp'] at hnew
    injection hnew with hnew
    refine ⟨storeHeadSlotOf prev (filteredChain unfin fin), hnew, ?_⟩
    rw [← hpv]
    exact prevHeadSlot_le_storeHeadSlotOf prev _

/-- Database with a stored `StateCheckpoint` whose `head_slot` is 10. -/
def dbC6 : DB := [(encodeKey .stateCheckpointKey, .vStateCheckpoint 0 10 ⟨0, 0⟩)]

/-- The database produced by appending the finalized link at slot 32 to
`dbC6`. -/
def dbC6' : DB :=
  putBatch dbC6 ((appendLoop ⟨4, false⟩ 32 (filteredChain [] [cl32])).batch.map
    fun e => serializeEntry e.1 e.2)

/-- Witness for C6: appending the finalized link at slot 32 over a checkpoint
with head slot 10 advances the observed slot from 10 to 32. -/
theorem c6_checkpoint_slot_monotone_witness :
    ∃ v', (some 32 : Option Nat) = some v' ∧ 10 ≤ v' :=
  c6_checkpoint_slot_monotone ⟨4, false⟩ dbC6 [] [cl32] ⟨[32], []⟩ dbC6'
    (some 10) (some 32) 10 rfl rfl rfl rfl

/-- C3 (counterexample): appending finalized links at slots 32 and 64
(newest-first) over an empty database records `head_slot = 32` — the slot of
the first retained link — while the same batch persists the finalized block
at slot 64, so the persisted `head_slot` is smaller than the slot of a block
persisted by that very commit, refuting invariant I4. -/
theorem c3_counterexample :
    ∃ sl db', append ⟨4, false⟩ [] [] [cl64, cl32] = .ok (sl, db') ∧
      checkpointStateSlot db' = .ok (some 32) ∧
      finalizedBlockByRootGet db' 101 = .ok (some ⟨64, 100, 201, 2⟩) ∧
      (32 : Nat) < 64 :=
  ⟨_, _, rfl, rfl, rfl, by norm_num⟩

/-- C3 (amended): after a successful `append` whose retained chain contains a
finalized epoch-start link, the persisted `StateCheckpoint.head_slot` equals
the maximum of the previously stored head slot and the slot of the first
retained link of that call; it need not bound the slots of later blocks
persisted by the same commit. -/
theorem c3_head_slot_is_max_of_first (cfg : StorageCfg) (db : DB)
    (unfin fin : List ChainLink) (s : AppendedBlockSlots) (db' : DB)
    (prev : Option (Nat × Nat × StateV)) (x : ChainLink × Bool)
    (hprev : loadStateCheckpoint db = .ok prev)
    (h : append cfg db unfin fin = .ok (s, db'))
    (hfind : (filteredChain unfin fin).find? finESLink = some x) :
    ∃ c0, (filteredChain unfin fin).head? = some c0 ∧
      checkpointStateSlot db' = .ok (some (max c0.1.slot (prevHeadSlot prev))) := by
  obtain ⟨c0, hc0⟩ : ∃ c0, (filteredChain unfin fin).head? = some c0 := by
    cases hch : filteredChain unfin fin with
    | nil => rw [hch] at hfind; cases hfind
    | cons a t => exact ⟨a, rfl⟩
  refine ⟨c0, hc0, ?_⟩
  have hshs_eq : storeHeadSlotOf prev (filteredChain unfin fin) =
      max c0.1.slot (prevHeadSlot prev) := by
    simp only [storeHeadSlotOf, hc0]
  have hpair := appendLoop_ckpt_first cfg
    (storeHeadSlotOf prev (filteredChain unfin fin)) (filteredChain unfin fin)
    initLoopState x rfl hfind
  have hsomef : (((appendLoop cfg (storeHeadSlotOf prev (filteredChain unfin fin))
      (filteredChain unfin fin)).batch).reverse.find?
      fun e => decide (e.1 = TypedKey.stateCheckpointKey)).isSome := by
    rw [List.find?_isSome]
    exact ⟨_, List.mem_reverse.mpr hpair.1, by simp⟩
  cases hfind2 : ((appendLoop cfg (storeHeadSlotOf prev (filteredChain unfin fin))
      (filteredChain unfin fin)).batch).reverse.find?
      fun e => decide (e.1 = TypedKey.stateCheckpointKey) with
  | none => rw [hfind2] at hsomef; cases hsomef
  | some e =>
    have hget := dbGet_putBatch_typed db
      ((appendLoop cfg (storeHeadSlotOf prev (filteredChain unfin fin))
        (filteredChain unfin fin)).batch) .stateCheckpointKey
    rw [← append_ok_db hprev h, hfind2] at hget
    have hmem : e ∈ (appendLoop cfg (storeHeadSlotOf prev (filteredChain unfin fin))
        (filteredChain unfin fin)).batch :=
      List.mem_reverse.mp (List.mem_of_find?_eq_some hfind2)
    have hpred := List.find?_some hfind2
    simp only [decide_eq_true_eq] at hpred
    obtain ⟨r, s2, hval⟩ := appendLoop_cstate_val cfg _ _ initLoopState
      (by intro z hz; simp [initLoopState] at hz) e hmem hpred
    have hget2 : dbGet db' (encodeKey TypedKey.stateCheckpointKey) = some e.2 := hget
    rw [hval] at hget2
    rw [← hshs_eq]
    simp only [checkpointStateSlot, loadStateCheckpoint, getValue, hget2]

/-- The database produced by the C3 counterexample scenario. -/
def dbC3' : DB :=
  putBatch [] ((appendLoop ⟨4, false⟩ 32 (filteredChain [] [cl64, cl32])).batch.map
    fun e => serializeEntry e.1 e.2)

/-- Witness for the amended C3 at the two-link scenario. -/
theorem c3_head_slot_is_max_of_first_witness :
    ∃ c0, (filteredChain [] [cl64, cl32]).head? = some c0 ∧
      checkpointStateSlot dbC3' = .ok (some (max c0.1.slot (prevHeadSlot none))) :=
  c3_head_slot_is_max_of_first ⟨4, false⟩ [] [] [cl64, cl32] ⟨[32, 64], []⟩ dbC3'
    none (cl32, true) rfl rfl rfl

/-! ## Claim C5 -/

/-- C5: appending finalized links at epoch-start slots `[32, 64, 96, 128]`
(given newest-first, `archival_epoch_interval = 4`, pruning disabled) in one
`append` call writes a `StateByBlockRoot` archival snapshot for exactly the
link at slot 128 — the first finalized epoch-start link whose epoch (4) is a
multiple of the interval — while the `BlockCheckpoint`/`StateCheckpoint`
pointers reference the link at slot 32, the first finalized epoch-start link
in ascending presentation order. -/
theorem c5_archival_and_checkpoint_selection :
    ∃ sl db', append ⟨4, false⟩ [] [] [cl128, cl96, cl64, cl32] = .ok (sl, db') ∧
      ((appendLoop ⟨4, false⟩ 32 (filteredChain [] [cl128, cl96, cl64, cl32])).batch.filter
          fun e => match e.1 with | .stateByBlockRoot _ => true | _ => false)
        = [(.stateByBlockRoot 103, .vState ⟨128, 503⟩)] ∧
      getValue db' .stateCheckpointKey = some (.vStateCheckpoint 100 32 ⟨32, 500⟩) ∧
      getValue db' .blockCheckpointKey = some (.vBlockCheckpoint ⟨32, 0, 200, 1⟩) ∧
      stateByBlockRootGet db' 103 = .ok (some ⟨128, 503⟩) ∧
      stateByBlockRootGet db' 100 = .ok none ∧
      stateByBlockRootGet db' 101 = .ok none ∧
      stateByBlockRootGet db' 102 = .ok none :=
  ⟨_, _, rfl, rfl, rfl, rfl, rfl, rfl, rfl, rfl⟩

/-! ## Claim C7 -/

/-- C7: for every anchor chosen by `load` — under any of the three
strategies — the anchor commit is a single atomic `put_batch` containing
exactly the four records `FinalizedBlockByRoot(root) -> block`,
`BlockRootBySlot(block.slot) -> root`, `SlotByStateRoot(block.state_root) ->
block.slot` and `StateByBlockRoot(root) -> state`, where `root` is the
anchor block's hash tree root; the batch's atomicity (all-or-nothing
visibility) is the `put_batch` contract of the key-value store. -/
theorem c7_anchor_commit_four_records {db : DB} {strategy : StateLoadStrategy}
    {fetch : Except Unit (Block × StateV)} {outcome : LoadOutcome} {db' : DB}
    (h : load db strategy fetch = .ok (outcome, db')) :
    db' = putBatch db (anchorRecords outcome.anchorBlock outcome.anchorState) ∧
    anchorRecords outcome.anchorBlock outcome.anchorState =
      [serializeEntry (.finalizedBlockByRoot (hashTreeRoot outcome.anchorBlock))
        (.vBlock outcome.anchorBlock),
       serializeEntry (.blockRootBySlot outcome.anchorBlock.slot)
        (.vRoot (hashTreeRoot outcome.anchorBlock)),
       serializeEntry (.slotByStateRoot outcome.anchorBlock.stateRoot)
        (.vSlot outcome.anchorBlock.slot),
       serializeEntry (.stateByBlockRoot (hashTreeRoot outcome.anchorBlock))
        (.vState outcome.anchorState)] := by
  refine ⟨?_, rfl⟩
  cases hsel : selectAnchor db strategy fetch with
  | error e =>
    unfold load at h
    rw [hsel] at h
    cases h
  | ok o =>
    unfold load at h
    rw [hsel] at h
    injection h with h
    rw [Prod.mk.injEq] at h
    rw [← h.2, ← h.1]

/-- Witness for C7 with the `Anchor` strategy on an empty database. -/
theorem c7_anchor_commit_four_records_witness :
    putBatch [] (anchorRecords ⟨0, 0, 5, 9⟩ ⟨0, 77⟩) =
      putBatch []
        (anchorRecords (⟨⟨0, 77⟩, ⟨0, 0, 5, 9⟩, [], false⟩ : LoadOutcome).anchorBlock
          (⟨⟨0, 77⟩, ⟨0, 0, 5, 9⟩, [], false⟩ : LoadOutcome).anchorState) :=
  (c7_anchor_commit_four_records
    (show load [] (.anchor ⟨0, 0, 5, 9⟩ ⟨0, 77⟩) (.error ()) =
      .ok (⟨⟨0, 77⟩, ⟨0, 0, 5, 9⟩, [], false⟩,
        putBatch [] (anchorRecords ⟨0, 0, 5, 9⟩ ⟨0, 77⟩)) from rfl)).1

/-! ## Claim C8 -/

/-- C8: `load` with the `Auto` strategy, an empty local database and a
checkpoint-sync URL whose remote fetch fails returns the genesis provider's
block and state as the anchor with an empty unfinalized iterator and
`loaded_from_remote = false` — the `CheckpointSyncFailed` error is only
logged, not propagated — whereas the `Remote` strategy propagates the same
failure as the fatal `CheckpointSyncFailed`. -/
theorem c8_auto_fallback_to_genesis (gb : Block) (gs : StateV) :
    load [] (.auto none (some ()) gb gs) (.error ()) =
      .ok (⟨gs, gb, [], false⟩, putBatch [] (anchorRecords gb gs)) ∧
    load [] .remote (.error ()) = .error .checkpointSyncFailed :=
  ⟨rfl, rfl⟩

/-- Witness for the amended C4: pruning `dbC4w` up to slot 5 removes its
slot-3 entry and the theorem's conclusion evaluates at that input. -/
theorem c4_prune_idempotent_and_bounded_witness :
    pruneOldBlobSidecars 5 ([] : DB) = .ok ([] : DB) ∧
    dbContains ([] : DB) (encodeKey (.slotBlobId 3 1 0)) = false := by
  have h := c4_prune_idempotent_and_bounded (by norm_num)
    (show pruneOldBlobSidecars 5 dbC4w = .ok [] from rfl)
  exact ⟨h.1, h.2 3 1 0 (by norm_num)⟩

/-! ## Claim C10 -/

/-- C10: with `prune_storage = true`, `append` writes no
`FinalizedBlockByRoot`, `UnfinalizedBlockByRoot`, `BlockRootBySlot`,
`SlotByStateRoot` or `StateByBlockRoot` entry for any link — every batch
entry is one of the two checkpoint literals — and the
`BlockCheckpoint`/`StateCheckpoint` pair is still written for the first
finalized epoch-start link even in pruning mode. -/
theorem c10_prune_writes_only_checkpoints (cfg : StorageCfg) (db : DB)
    (unfin fin : List ChainLink) (s : AppendedBlockSlots) (db' : DB)
    (prev : Option (Nat × Nat × StateV))
    (hpr : cfg.pruneStorage = true)
    (hprev : loadStateCheckpoint db = .ok prev)
    (h : append cfg db unfin fin = .ok (s, db')) :
    db' = putBatch db
      ((appendLoop cfg (storeHeadSlotOf prev (filteredChain unfin fin))
        (filteredChain unfin fin)).batch.map fun e => serializeEntry e.1 e.2) ∧
    (∀ e ∈ (appendLoop cfg (storeHeadSlotOf prev (filteredChain unfin fin))
        (filteredChain unfin fin)).batch,
      e.1 = TypedKey.stateCheckpointKey ∨ e.1 = TypedKey.blockCheckpointKey) ∧
    ∀ x, (filteredChain unfin fin).find? finESLink = some x →
      (TypedKey.stateCheckpointKey, Value.vStateCheckpoint x.1.blockRoot
        (storeHeadSlotOf prev (filteredChain unfin fin)) x.1.state) ∈
        (appendLoop cfg (storeHeadSlotOf prev (filteredChain unfin fin))
          (filteredChain unfin fin)).batch ∧
      (TypedKey.blockCheckpointKey, Value.vBlockCheckpoint x.1.block) ∈
        (appendLoop cfg (storeHeadSlotOf prev (filteredChain unfin fin))
          (filteredChain unfin fin)).batch := by
  refine ⟨append_ok_db hprev h, ?_, ?_⟩
  · exact appendLoop_prune_keys cfg _ hpr _ initLoopState
      (by intro e he; simp [initLoopState] at he)
  · intro x hfind
    exact appendLoop_ckpt_first cfg _ _ initLoopState x rfl hfind

/-- The database produced by a pruning-mode `append` of the slot-32 link. -/
def dbC10' : DB :=
  putBatch [] ((appendLoop ⟨4, true⟩ 32 (filteredChain [] [cl32])).batch.map
    fun e => serializeEntry e.1 e.2)

/-- Witness for C10: in pruning mode, the checkpoint pair for the slot-32
link is still pushed into the batch. -/
theorem c10_prune_writes_only_checkpoints_witness :
    (TypedKey.stateCheckpointKey, Value.vStateCheckpoint 100 32 ⟨32, 500⟩) ∈
      (appendLoop ⟨4, true⟩ 32 (filteredChain [] [cl32])).batch :=
  ((c10_prune_writes_only_checkpoints ⟨4, true⟩ [] [] [cl32] ⟨[], []⟩ dbC10' none
    rfl rfl rfl).2.2 (cl32, true) rfl).1

/-! ## Claim C9 -/

theorem padDigits10_foldl :
    ∀ (w n a : Nat), n < 10 ^ w →
      (padDigits 10 w n).foldl (fun acc d => acc * 10 + d) a = a * 10 ^ w + n
  | 0, n, a, hn => by
    have : n = 0 := by simpa using hn
    subst this
    simp [padDigits]
  | w + 1, n, a, hn => by
    rw [padDigits_succ]
    simp only [List.foldl_cons]
    rw [padDigits10_foldl w _ _ (Nat.mod_lt _ (by positivity))]
    have h1 : (a * 10 + n / 10 ^ w) * 10 ^ w + n % 10 ^ w
        = a * (10 ^ w * 10) + (10 ^ w * (n / 10 ^ w) + n % 10 ^ w) := by ring
    rw [h1, Nat.div_add_mod, ← pow_succ]

theorem digitsValue_dec20 {s : Nat} (hs : s < 10 ^ 20) : digitsValue (dec20 s) = s := by
  rw [digitsValue, dec20, List.foldl_map]
  have h2 : ∀ (l : List Nat) (a : Nat),
      l.foldl (fun x y => x * 10 + (decByte y - 48)) a =
      l.foldl (fun acc d => acc * 10 + d) a := by
    intro l a
    simp [decByte]
  rw [h2, padDigits10_foldl 20 s 0 hs]
  omega

theorem dec20_cons (s : Nat) :
    dec20 s = decByte (s / 10 ^ 19) :: (padDigits 10 19 (s % 10 ^ 19)).map decByte := by
  simp [dec20, padDigits]

theorem dec20_all_digits {s : Nat} (hs : s < 10 ^ 20) :
    (dec20 s).all isDigitByte = true := by
  rw [List.all_eq_true]
  intro b hb
  rw [dec20] at hb
  obtain ⟨d, hd, rfl⟩ := List.mem_map.mp hb
  have hdlt : d < 10 := padDigits_lt_base 10 20 s hs d hd
  simp only [isDigitByte, decByte, Bool.and_eq_true, decide_eq_true_eq]
  omega

theorem parseU64_digits {bs : List Nat} (hne : ∀ t, bs ≠ 43 :: t)
    (hempty : bs.isEmpty = false) (hdigits : bs.all isDigitByte = true)
    (hval : digitsValue bs < 2 ^ 64) :
    parseU64 bs = .ok (digitsValue bs) := by
  have hmatch : stripPlusSign bs = bs := by
    cases bs with
    | nil => rfl
    | cons b t =>
      have hb : b ≠ 43 := fun hb43 => hne t (by rw [hb43])
      simp [stripPlusSign, hb]
  simp only [parseU64, hmatch]
  rw [if_neg (by rw [hempty]; exact Bool.false_ne_true), if_pos hdigits, if_pos hval]

/-- Roundtrip of the `BlockRootBySlot` codec on the `u64` domain. -/
theorem decodeBlockRootBySlot_roundtrip {s : Nat} (hs : s < 2 ^ 64) :
    decodeBlockRootBySlot (encodeKey (.blockRootBySlot s)) = .ok s := by
  have hs20 : s < 10 ^ 20 := lt_trans hs (by norm_num)
  show parseU64 (dec20 s) = .ok s
  have hval := digitsValue_dec20 hs20
  have hne : ∀ t, dec20 s ≠ 43 :: t := by
    intro t ht
    rw [dec20_cons] at ht
    injection ht with h1 _
    simp only [decByte] at h1
    omega
  have hempty : (dec20 s).isEmpty = false := by
    rw [dec20_cons]
    rfl
  rw [parseU64_digits hne hempty (dec20_all_digits hs20) (by rw [hval]; exact hs), hval]

/-- Decoding bytes that do not start with the `"r"` family tag fails with
`IncorrectPrefix`. -/
theorem decodeBlockRootBySlot_wrong_tag {bs : List Nat} (h : ∀ t, bs ≠ 114 :: t) :
    decodeBlockRootBySlot bs = .error (.incorrectKeyTag bs) := by
  cases bs with
  | nil => rfl
  | cons b t =>
    have hb : b ≠ 114 := fun hb114 => h t (by rw [hb114])
    simp [decodeBlockRootBySlot, hb]

/-- C9: within each key family the rendered key is injective on the logical
key domain (`u64` slots and indices, `H256` roots), the `BlockRootBySlot`
codec round-trips — decoding `encode(k)` returns `k` for every slot `k` —
and decoding any byte string that does not start with the family's `"r"`
tag fails with `IncorrectPrefix`. -/
theorem c9_key_codec_injective_roundtrip :
    (∀ s1 s2 : Nat, s1 < 2 ^ 64 → s2 < 2 ^ 64 →
      encodeKey (.blockRootBySlot s1) = encodeKey (.blockRootBySlot s2) → s1 = s2) ∧
    (∀ r1 r2 : Nat, r1 < 2 ^ 256 → r2 < 2 ^ 256 →
      encodeKey (.finalizedBlockByRoot r1) = encodeKey (.finalizedBlockByRoot r2) →
      r1 = r2) ∧
    (∀ r1 r2 : Nat, r1 < 2 ^ 256 → r2 < 2 ^ 256 →
      encodeKey (.unfinalizedBlockByRoot r1) = encodeKey (.unfinalizedBlockByRoot r2) →
      r1 = r2) ∧
    (∀ r1 r2 : Nat, r1 < 2 ^ 256 → r2 < 2 ^ 256 →
      encodeKey (.stateByBlockRoot r1) = encodeKey (.stateByBlockRoot r2) → r1 = r2) ∧
    (∀ r1 r2 : Nat, r1 < 2 ^ 256 → r2 < 2 ^ 256 →
      encodeKey (.slotByStateRoot r1) = encodeKey (.slotByStateRoot r2) → r1 = r2) ∧
    (∀ r1 i1 r2 i2 : Nat, r1 < 2 ^ 256 → r2 < 2 ^ 256 → i1 < 2 ^ 64 → i2 < 2 ^ 64 →
      encodeKey (.blobSidecarByBlobId r1 i1) = encodeKey (.blobSidecarByBlobId r2 i2) →
      r1 = r2 ∧ i1 = i2) ∧
    (∀ s1 r1 i1 s2 r2 i2 : Nat, s1 < 2 ^ 64 → s2 < 2 ^ 64 →
      r1 < 2 ^ 256 → r2 < 2 ^ 256 → i1 < 2 ^ 64 → i2 < 2 ^ 64 →
      encodeKey (.slotBlobId s1 r1 i1) = encodeKey (.slotBlobId s2 r2 i2) →
      s1 = s2 ∧ r1 = r2 ∧ i1 = i2) ∧
    (∀ s : Nat, s < 2 ^ 64 →
      decodeBlockRootBySlot (encodeKey (.blockRootBySlot s)) = .ok s) ∧
    (∀ bs : List Nat, (∀ t, bs ≠ 114 :: t) →
      decodeBlockRootBySlot bs = .error (.incorrectKeyTag bs)) := by
  refine ⟨?_, ?_, ?_, ?_, ?_, ?_, ?_, ?_, ?_⟩
  · intro s1 s2 _ _ h
    injection encodeKey_inj h
  · intro r1 r2 _ _ h
    injection encodeKey_inj h
  · intro r1 r2 _ _ h
    injection encodeKey_inj h
  · intro r1 r2 _ _ h
    injection encodeKey_inj h
  · intro r1 r2 _ _ h
    injection encodeKey_inj h
  · intro r1 i1 r2 i2 _ _ _ _ h
    injection encodeKey_inj h with h1 h2
    exact ⟨h1, h2⟩
  · intro s1 r1 i1 s2 r2 i2 _ _ _ _ _ _ h
    injection encodeKey_inj h with h1 h2 h3
    exact ⟨h1, h2, h3⟩
  · intro s hs
    exact decodeBlockRootBySlot_roundtrip hs
  · intro bs hbs
    exact decodeBlockRootBySlot_wrong_tag hbs

/-- Witness for C9 at concrete inputs: the slot-7 key round-trips, a key
with the `"b"` tag is rejected with `IncorrectPrefix`, and injectivity holds
trivially at equal inputs. -/
theorem c9_key_codec_injective_roundtrip_witness :
    decodeBlockRootBySlot (encodeKey (.blockRootBySlot 7)) = .ok 7 ∧
    decodeBlockRootBySlot [98, 48] = .error (.incorrectKeyTag [98, 48]) ∧
    (5 : Nat) = 5 :=
  ⟨c9_key_codec_injective_roundtrip.2.2.2.2.2.2.2.1 7 (by norm_num),
   c9_key_codec_injective_roundtrip.2.2.2.2.2.2.2.2 [98, 48]
     (by intro t ht; simp at ht),
   c9_key_codec_injective_roundtrip.1 5 5 (by norm_num) (by norm_num) rfl⟩

end Grandine
